import Mathlib

/-! # cerror: error wrappers with stack context, and the stack-trace filter

A shallow embedding of the Go package `cerror` (`error.go`, `stack.go`,
`stack_filter.go`).

Conventions of the embedding.

* A Go `string` is a `Str`, a list of characters (valid UTF-8 text).
* A Go `error` interface value is a `GoError`; the interface value `nil` is the
  constructor `GoError.nil`.  Errors defined outside the package carry their
  text and what `errors.As` can observe of them: `foreign` values have an
  `Unwrap() error` method (or none, then the result is `nil`), `joined` values
  have an `Unwrap() []error` method (as `errors.Join` and `fmt.Errorf` with
  several `%w` build them), and `withAs` values have an `As(any) bool` method
  that answers a `*WithStack` target.  A nil pointer stored in an interface is
  not modelled.
* `callers()` reads the runtime call stack; the program counters the runtime
  reports are passed in explicitly.
* A run-time fault (nil dereference, slice index out of range, `MustCompile`
  on an invalid pattern) is `none`.
* `regexp` and `encoding/json` belong to the standard library: a compiled
  pattern is a `Regexp` value carrying its matcher, and `MustCompile` and
  `json.MarshalIndent` are parameters.
-/

namespace Cerror

/-- Go strings, as sequences of characters. -/
abbrev Str := List Char

/-! ## stack.go: capture -/

/-- Type `stack`: a stack of program counters. -/
abbrev stack := List Nat

/-- The constant `depth` of `callers`. -/
def depth : Nat := 32

/-- Function `callers`: `runtime.Callers(3, pcs[:])` fills a buffer of `depth`
entries from the program counters `rt` the runtime reports (innermost first,
after the skipped frames) and `pcs[:n]` keeps what was written. -/
def callers (rt : List Nat) : stack := rt.take depth

/-! ## error.go -/

/-- Values of the Go interface `error`. -/
inductive GoError where
  /-- The nil interface value. -/
  | nil : GoError
  /-- An error of a type defined outside this package: its `Error()` text and
  what its `Unwrap()` returns (`nil` when the type has no such method). -/
  | foreign (text : Str) (inner : GoError) : GoError
  /-- The value `&WithStack{error, stack}`. -/
  | WithStack (error : GoError) (st : stack) : GoError
  /-- The value `&WithMessage{cause, msg}`. -/
  | WithMessage (cause : GoError) (msg : Str) : GoError
  /-- An error of a type defined outside this package with a method
  `Unwrap() []error`: its `Error()` text and the slice that `Unwrap()` returns
  (entries may be `nil`). -/
  | joined (text : Str) (errs : List GoError) : GoError
  /-- An error of a type defined outside this package with a method
  `As(any) bool` that, given a `**WithStack` target, stores
  `&WithStack{error, st}` there and returns `true`; `text` is its `Error()`
  text and `inner` what its `Unwrap()` returns.  (A foreign `As` method that
  returns `false` for this target leaves `errors.As` to go on with `Unwrap`,
  like a `foreign` or `joined` value.) -/
  | withAs (text : Str) (error : GoError) (st : stack) (inner : GoError) : GoError

/-- The test `err == nil` on an interface value. -/
instance GoError.decEqNil (err : GoError) : Decidable (err = GoError.nil) :=
  match err with
  | .nil => isTrue rfl
  | .foreign _ _ => isFalse (fun h => GoError.noConfusion h)
  | .WithStack _ _ => isFalse (fun h => GoError.noConfusion h)
  | .WithMessage _ _ => isFalse (fun h => GoError.noConfusion h)
  | .joined _ _ => isFalse (fun h => GoError.noConfusion h)
  | .withAs _ _ _ _ => isFalse (fun h => GoError.noConfusion h)

/-- Whether the dynamic type of an error is `*WithStack`. -/
def isWithStack : GoError → Bool
  | .WithStack _ _ => true
  | _ => false

/-- Whether the dynamic type of an error is `*WithMessage`. -/
def isWithMessage : GoError → Bool
  | .WithMessage _ _ => true
  | _ => false

mutual
/-- The call `errors.As(err, &e)` with `e` of type `*WithStack`, as the
standard library defines it: at each error, stop when its dynamic type is
`*WithStack` or when its own `As` method answers the target; else go on with
the result of `Unwrap() error`, or depth-first through the results of
`Unwrap() []error`.  The result holds the two fields of the wrapper stored in
`e`. -/
def As : GoError → Option (GoError × stack)
  | .nil => none
  | .WithStack e st => some (e, st)
  | .WithMessage c _ => As c
  | .foreign _ inner => As inner
  | .joined _ errs => AsList errs
  | .withAs _ e st _ => some (e, st)
/-- The loop of `errors.As` over the slice of an `Unwrap() []error`: nil
entries are skipped and the first entry for which the search succeeds ends
it. -/
def AsList : List GoError → Option (GoError × stack)
  | [] => none
  | err :: rest =>
    match As err with
    | some e => some e
    | none => AsList rest
end

/-- Function `UnwrapError`. -/
def UnwrapError (err : GoError) : GoError :=
  if err = .nil then .nil
  else
    match As err with
    | some e => e.1
    | none => err

/-- Function `ErrorWithStack`; `rt` is the call stack seen by `callers()`. -/
def ErrorWithStack (rt : List Nat) (err : GoError) : GoError :=
  if err = .nil then .nil
  else .WithStack err (callers rt)

/-- Function `ErrorWithMessage`. -/
def ErrorWithMessage (err : GoError) (message : Str) : GoError :=
  if err = .nil then .nil
  else .WithMessage err message

/-- Function `WrapWithMessage`; `rt` is the call stack seen by `callers()`. -/
def WrapWithMessage (rt : List Nat) (err : GoError) (message : Str) : GoError :=
  if err = .nil then .nil
  else
    let err1 := GoError.WithMessage err message
    .WithStack err1 (callers rt)

/-- Methods `(*WithStack).Cause` and `(*WithMessage).Cause`; `none` for a value
that has no such method. -/
def Cause : GoError → Option GoError
  | .WithStack e _ => some e
  | .WithMessage c _ => some c
  | _ => none

/-- Methods `(*WithStack).Unwrap` and `(*WithMessage).Unwrap`, and the `Unwrap`
result recorded in a foreign error; `none` for the nil interface and for a
value whose `Unwrap` returns a slice. -/
def Unwrap : GoError → Option GoError
  | .WithStack e _ => some e
  | .WithMessage c _ => some c
  | .foreign _ inner => some inner
  | .withAs _ _ _ inner => some inner
  | .joined _ _ => none
  | .nil => none

/-- Method `Error`: `(*WithMessage).Error` is `w.msg + ": " + w.cause.Error()`,
`*WithStack` gets `Error` from its embedded `error` field, and calling it
through a nil interface faults. -/
def Error : GoError → Option Str
  | .nil => none
  | .foreign text _ => some text
  | .WithStack e _ => Error e
  | .WithMessage c m => (Error c).map (fun t => m ++ ": ".toList ++ t)
  | .joined text _ => some text
  | .withAs text _ _ _ => some text

mutual
/-- The errors reached from `err` by repeated `Unwrap`, `err` first; the
entries of an `Unwrap() []error` are taken in order, each with the errors
below it before the next (depth first). -/
def chain : GoError → List GoError
  | .nil => []
  | .foreign text inner => .foreign text inner :: chain inner
  | .WithStack e st => .WithStack e st :: chain e
  | .WithMessage c m => .WithMessage c m :: chain c
  | .joined text errs => .joined text errs :: chainList errs
  | .withAs text e st inner => .withAs text e st inner :: chain inner
/-- The errors reached from the entries of a slice, in order. -/
def chainList : List GoError → List GoError
  | [] => []
  | err :: rest => chain err ++ chainList rest
end

/-- Whether `errors.As` with a `*WithStack` target stops at this error: its
dynamic type is `*WithStack`, or its own `As` method answers the target. -/
def answersAs : GoError → Bool
  | .WithStack _ _ => true
  | .withAs _ _ _ _ => true
  | _ => false

/-- The fields of the stack wrapper that `errors.As` stores in its target when
it stops at this error. -/
def supplied : GoError → Option (GoError × stack)
  | .WithStack e st => some (e, st)
  | .withAs _ e st _ => some (e, st)
  | _ => none

/-! ## Standard-library string functions used by stack_filter.go -/

/-- The call `strings.Split(s, sep)` for a separator of one character, which is
how every call in the package uses it: the pieces of `s` between the
occurrences of `sep`, always at least one piece. -/
def Split : Str → Char → List Str
  | [], _ => [[]]
  | c :: cs, sep =>
    if c = sep then [] :: Split cs sep
    else
      match Split cs sep with
      | [] => [[c]]
      | p :: ps => (c :: p) :: ps

/-- The call `strings.Join(elems, sep)`. -/
def Join : List Str → Str → Str
  | [], _ => []
  | [a], _ => a
  | a :: b :: rest, sep => a ++ sep ++ Join (b :: rest) sep

/-- The predicate `unicode.IsSpace`. -/
def isSpace (c : Char) : Bool :=
  let n := c.toNat
  (9 ≤ n && n ≤ 13) || n = 32 || n = 0x85 || n = 0xA0 || n = 0x1680 ||
  (0x2000 ≤ n && n ≤ 0x200A) || n = 0x2028 || n = 0x2029 || n = 0x202F ||
  n = 0x205F || n = 0x3000

/-- The call `strings.TrimSpace(s)`: leading and trailing white space removed. -/
def TrimSpace (s : Str) : Str :=
  ((s.dropWhile isSpace).reverse.dropWhile isSpace).reverse

/-- The call `strings.Index(s, substr)`: the index of the first occurrence of
`substr` in `s`, or `-1`. -/
def Index : Str → Str → Int
  | [], substr => if substr = [] then 0 else -1
  | c :: t, substr =>
    if (c :: t).take substr.length = substr then 0
    else
      let r := Index t substr
      if r < 0 then -1 else r + 1

/-- The slice expression `s[i:]`; an index outside `0 ..= len(s)` faults. -/
def sliceFrom (s : Str) (i : Int) : Option Str :=
  if i < 0 ∨ (s.length : Int) < i then none else some (s.drop i.toNat)

/-- The text after the last `.`: `fn := strings.Split(name, ".")` followed by
`fn[len(fn)-1]`.  `Split` never returns an empty list, so the index is in
range. -/
def lastFn (name : Str) : Str :=
  (Split name '.').getLastD []

/-! ## stack_filter.go -/

/-- A compiled `*regexp.Regexp`: the pattern text and its `MatchString`. -/
structure Regexp where
  /-- The source text of the pattern. -/
  expr : Str
  /-- Method `MatchString`. -/
  MatchString : Str → Bool

/-- Type `StackTraceFilter`. -/
structure StackTraceFilter where
  /-- Field `BasePatterns`. -/
  BasePatterns : List Regexp
  /-- Field `ExcludePatterns`. -/
  ExcludePatterns : List Regexp

/-- Variable `defaultExclude`. -/
def defaultExclude : List Str := ["WithStack".toList, "stack_filter.go".toList]

/-- The closure `compilePatterns` of `NewStackTraceFilter`; `MustCompile`
faults on an invalid pattern. -/
def compilePatterns (MustCompile : Str → Option Regexp) : List Str → Option (List Regexp)
  | [] => some []
  | pattern :: rest =>
    match MustCompile pattern with
    | none => none
    | some r =>
      match compilePatterns MustCompile rest with
      | none => none
      | some rs => some (r :: rs)

/-- Function `NewStackTraceFilter`. -/
def NewStackTraceFilter (MustCompile : Str → Option Regexp)
    (basePatterns excludePatterns : List Str) : Option StackTraceFilter :=
  let basePatterns1 := if basePatterns.length = 0 then [".*".toList] else basePatterns
  let excludePatterns1 :=
    if excludePatterns.length = 0 then defaultExclude else excludePatterns ++ defaultExclude
  match compilePatterns MustCompile basePatterns1 with
  | none => none
  | some b =>
    match compilePatterns MustCompile excludePatterns1 with
    | none => none
    | some e => some { BasePatterns := b, ExcludePatterns := e }

/-- Method `AddBasePath`. -/
def AddBasePath (MustCompile : Str → Option Regexp) (f : StackTraceFilter) (pattern : Str) :
    Option StackTraceFilter :=
  match MustCompile pattern with
  | none => none
  | some r => some { f with BasePatterns := f.BasePatterns ++ [r] }

/-- Method `AddExcludePath`. -/
def AddExcludePath (MustCompile : Str → Option Regexp) (f : StackTraceFilter) (pattern : Str) :
    Option StackTraceFilter :=
  match MustCompile pattern with
  | none => none
  | some r => some { f with ExcludePatterns := f.ExcludePatterns ++ [r] }

/-- The loop shared by `isInBasePaths` and `isInExcludePaths`:
`for _, pattern := range patterns { if pattern.MatchString(location) { return true } }`
and `return false` after it. -/
def rangeMatch : List Regexp → Str → Bool
  | [], _ => false
  | pattern :: rest, location =>
    if pattern.MatchString location then true else rangeMatch rest location

/-- Method `isInBasePaths`. -/
def isInBasePaths (f : StackTraceFilter) (location : Str) : Bool :=
  rangeMatch f.BasePatterns location

/-- Method `isInExcludePaths`. -/
def isInExcludePaths (f : StackTraceFilter) (location : Str) : Bool :=
  rangeMatch f.ExcludePatterns location

/-- The record `fmt.Sprintf("%s (%s)", function, location)`. -/
def record (function location : Str) : Str :=
  function ++ " (".toList ++ location ++ ")".toList

/-- The loop `for i := 0; i < len(lines)-1; i += 2` of `Filter` and of
`FilterOnlyBasePath`, from index `i` with the records collected so far.  An
index out of range is a fault (`none`); `fuel` bounds the number of
iterations and running out of it is `none` as well. -/
def filterLoop (f : StackTraceFilter) (lines : List Str) :
    Nat → Nat → List Str → Option (List Str)
  | 0, i, filtered => if (i : Int) < (lines.length : Int) - 1 then none else some filtered
  | fuel + 1, i, filtered =>
    if (i : Int) < (lines.length : Int) - 1 then
      match lines.get? i, lines.get? (i + 1) with
      | some l0, some l1 =>
        let function := TrimSpace l0
        let location := TrimSpace l1
        if isInBasePaths f location && !isInExcludePaths f location then
          filterLoop f lines fuel (i + 2) (filtered ++ [record function location])
        else
          filterLoop f lines fuel (i + 2) filtered
      | _, _ => none
    else some filtered

/-- The first half of `Filter`: split the raw stack into lines and run the
loop, giving the slice `filtered`. -/
def filtered (f : StackTraceFilter) (rawStack : Str) : Option (List Str) :=
  let lines := Split rawStack '\n'
  filterLoop f lines lines.length 0 []

/-- The loop of `formatPlain` over the lines, with the output lines collected
so far; `none` is the early `return ""`. -/
def plainLoop : List Str → List Str → Option (List Str)
  | [], formattedStack => some formattedStack
  | line :: rest, formattedStack =>
    if line = [] then plainLoop rest formattedStack
    else
      match Split line ' ' with
      | p0 :: p1 :: _ =>
        plainLoop rest
          (formattedStack ++ ["fn:".toList ++ lastFn p0 ++ " (".toList ++ p1 ++ ")".toList])
      | _ => none

/-- Function `formatPlain`. -/
def formatPlain (stackTrace : Str) : Str :=
  match plainLoop (Split stackTrace '\n') [] with
  | none => []
  | some formattedStack => Join formattedStack "\n".toList

/-- A `map[string]string`, as the list of its entries. -/
abbrev StrMap := List (Str × Str)

/-- The loop of `formatToJSON` over the lines, with the objects collected so
far; the error is `fmt.Errorf("invalid stack trace format: %s", line)`. -/
def jsonLoop : List Str → List StrMap → Except Str (List StrMap)
  | [], formattedStack => .ok formattedStack
  | line :: rest, formattedStack =>
    if line = [] then jsonLoop rest formattedStack
    else
      match Split line ' ' with
      | p0 :: p1 :: _ =>
        jsonLoop rest
          (formattedStack ++ [[("function".toList, lastFn p0), ("file".toList, p1)]])
      | _ => .error ("invalid stack trace format: ".toList ++ line)

/-- Function `formatToJSON`; `MarshalIndent v` stands for
`json.MarshalIndent(v, "", "  ")`, which does not fail on a slice of string
maps. -/
def formatToJSON (MarshalIndent : List StrMap → Str) (stackTrace : Str) : Except Str Str :=
  match jsonLoop (Split stackTrace '\n') [] with
  | .error e => .error e
  | .ok formattedStack => .ok (MarshalIndent formattedStack)

/-- The `switch format` that ends `Filter` and `FilterOnlyBasePath`. -/
def encode (MarshalIndent : List StrMap → Str) (records : List Str) (format : Str) : Str :=
  if format = "json".toList then
    match formatToJSON MarshalIndent (Join records "\n".toList) with
    | .error _ => []
    | .ok jsonFormat => jsonFormat
  else formatPlain (Join records "\n".toList)

/-- Method `Filter`. -/
def Filter (MarshalIndent : List StrMap → Str) (f : StackTraceFilter)
    (rawStack format : Str) : Option Str :=
  match filtered f rawStack with
  | none => none
  | some fl => some (encode MarshalIndent fl format)

/-- The second loop of `FilterOnlyBasePath`:
`newFiltered = append(newFiltered, filter[strings.Index(filter, basePath):])`. -/
def truncLoop (basePath : Str) : List Str → List Str → Option (List Str)
  | [], newFiltered => some newFiltered
  | filter :: rest, newFiltered =>
    match sliceFrom filter (Index filter basePath) with
    | none => none
    | some t => truncLoop basePath rest (newFiltered ++ [t])

/-- Method `FilterOnlyBasePath`; `make([]string, len(filtered))` is a slice of
that many empty strings. -/
def FilterOnlyBasePath (MarshalIndent : List StrMap → Str) (f : StackTraceFilter)
    (basePath rawStack format : Str) : Option Str :=
  match filtered f rawStack with
  | none => none
  | some fl =>
    match truncLoop basePath fl (List.replicate fl.length []) with
    | none => none
    | some newFiltered => some (encode MarshalIndent newFiltered format)

/-! ## The frames of a raw stack, as the specification describes them -/

/-- Consecutive pairs `(line 2k, line 2k+1)` of a list of lines; an unpaired
last line is dropped. -/
def framePairs : List Str → List (Str × Str)
  | a :: b :: rest => (a, b) :: framePairs rest
  | _ => []

/-- The frame records of a raw stack: the pairs of its lines, each line with
its surrounding white space removed (function first, location second). -/
def frames (rawStack : Str) : List (Str × Str) :=
  (framePairs (Split rawStack '\n')).map (fun p => (TrimSpace p.1, TrimSpace p.2))

/-- A location is kept: it matches at least one base pattern and no exclude
pattern. -/
def keeps (f : StackTraceFilter) (location : Str) : Prop :=
  (∃ p ∈ f.BasePatterns, p.MatchString location = true) ∧
  (∀ p ∈ f.ExcludePatterns, p.MatchString location = false)

instance keepsDecidable (f : StackTraceFilter) (location : Str) :
    Decidable (keeps f location) := by
  unfold keeps
  infer_instance

/-- The frames of a raw stack that are kept, in input order. -/
def keptFrames (f : StackTraceFilter) (rawStack : Str) : List (Str × Str) :=
  (frames rawStack).filter (fun fr => decide (keeps f fr.2))

/-! ## A matcher for a fragment of the pattern syntax

`regexp.MustCompile` is a parameter of the embedding.  To run the filter on
concrete inputs, `fragmentCompile` implements the part of the RE2 syntax that
the package's default patterns and the examples use: literal characters, `.`,
an escaped punctuation character, and `*` after one of these.  As with
`MatchString`, a pattern matches when it matches some substring. -/

/-- One element of a pattern of the fragment. -/
inductive Atom where
  /-- A literal character. -/
  | lit (c : Char) : Atom
  /-- The pattern `.`: any character but a newline. -/
  | dot : Atom
  deriving DecidableEq

/-- Whether an element matches a character. -/
def Atom.accepts : Atom → Char → Bool
  | .lit a, c => a = c
  | .dot, c => c ≠ '\n'

/-- Characters with a meaning of their own in the pattern syntax. -/
def isMeta (c : Char) : Bool :=
  c ∈ ['\\', '.', '*', '+', '?', '(', ')', '[', ']', '{', '}', '|', '^', '$']

/-- The element for one unescaped character; `none` outside the fragment. -/
def atomOf (c : Char) : Option Atom :=
  if c = '.' then some Atom.dot
  else if isMeta c then none
  else some (Atom.lit c)

/-- The element for the character after a backslash; `none` outside the
fragment (a letter or digit there names a class). -/
def escapedAtom (c : Char) : Option Atom :=
  if c.isAlphanum then none else some (Atom.lit c)

/-- Put an element, starred or not, in front of the parsed rest. -/
def consAtom (a : Option Atom) (star : Bool) (rest : Option (List (Atom × Bool))) :
    Option (List (Atom × Bool)) :=
  match a, rest with
  | some x, some r => some ((x, star) :: r)
  | _, _ => none

/-- Parse a pattern of the fragment into its elements, each with its star
flag; `none` outside the fragment. -/
def parsePattern : Str → Option (List (Atom × Bool))
  | [] => some []
  | [c] => if c = '\\' then none else consAtom (atomOf c) false (some [])
  | [c, d] =>
    if c = '\\' then consAtom (escapedAtom d) false (some [])
    else if d = '*' then consAtom (atomOf c) true (some [])
    else consAtom (atomOf c) false (parsePattern [d])
  | c :: d :: e :: rest =>
    if c = '\\' then
      if e = '*' then consAtom (escapedAtom d) true (parsePattern rest)
      else consAtom (escapedAtom d) false (parsePattern (e :: rest))
    else if d = '*' then consAtom (atomOf c) true (parsePattern (e :: rest))
    else consAtom (atomOf c) false (parsePattern (d :: e :: rest))

/-- Match a starred element followed by the continuation `k`, at the start of
the text. -/
def matchStar (a : Atom) (k : Str → Bool) : Str → Bool
  | [] => k []
  | c :: cs => k (c :: cs) || (a.accepts c && matchStar a k cs)

/-- Match the elements at the start of the text. -/
def matchHere : List (Atom × Bool) → Str → Bool
  | [], _ => true
  | (a, true) :: rest, text => matchStar a (matchHere rest) text
  | (_, false) :: _, [] => false
  | (a, false) :: rest, c :: cs => a.accepts c && matchHere rest cs

/-- Match the elements at some position of the text. -/
def matchAnywhere (re : List (Atom × Bool)) : Str → Bool
  | [] => matchHere re []
  | c :: cs => matchHere re (c :: cs) || matchAnywhere re cs

/-- The function `regexp.MustCompile` on the fragment; a pattern outside it is
rejected. -/
def fragmentCompile (pattern : Str) : Option Regexp :=
  match parsePattern pattern with
  | none => none
  | some re => some { expr := pattern, MatchString := matchAnywhere re }

/-- The input of the end-to-end scenario: two frames, `pkg.Foo` in `foo.go`
and `pkg.Bar` in `bar.go`. -/
def scenarioStack : Str :=
  "pkg.Foo\n\t/src/app/foo.go:10\npkg.Bar\n\t/src/app/bar.go:20\n".toList

/-! ## stack.go: frames and their rendering -/

/-- Type `Frame`: a `uintptr`, the program counter plus one. -/
abbrev Frame := Nat

/-- A `*runtime.Func`: its `Name()` and its `FileLine(pc)`. -/
structure Func where
  /-- Method `Name`. -/
  Name : Str
  /-- Method `FileLine`. -/
  FileLine : Nat → Str × Int

/-- Method `Frame.pc`: `uintptr(f) - 1`, in 64-bit unsigned arithmetic. -/
def Frame.pc (f : Frame) : Nat := (f + 2 ^ 64 - 1) % 2 ^ 64

/-- Method `Frame.file`; `FuncForPC` is `runtime.FuncForPC`. -/
def Frame.file (FuncForPC : Nat → Option Func) (f : Frame) : Str :=
  match FuncForPC (Frame.pc f) with
  | none => "unknown".toList
  | some fn => (fn.FileLine (Frame.pc f)).1

/-- Method `Frame.line`. -/
def Frame.line (FuncForPC : Nat → Option Func) (f : Frame) : Int :=
  match FuncForPC (Frame.pc f) with
  | none => 0
  | some fn => (fn.FileLine (Frame.pc f)).2

/-- Method `Frame.name`. -/
def Frame.name (FuncForPC : Nat → Option Func) (f : Frame) : Str :=
  match FuncForPC (Frame.pc f) with
  | none => "unknown".toList
  | some fn => fn.Name

/-- The call `strconv.Itoa(i)`: the decimal digits, after `-` for a negative
number. -/
def Itoa : Int → Str
  | Int.ofNat m => Nat.toDigits 10 m
  | Int.negSucc m => '-' :: Nat.toDigits 10 (m + 1)

/-- The call `path.Base(path)`: trailing slashes removed, then the text after
the last slash; `.` for the empty path and `/` for a path of slashes. -/
def Base (path : Str) : Str :=
  if path = [] then ".".toList
  else
    let p := (path.reverse.dropWhile (fun c => c = '/')).reverse
    let q := (p.reverse.takeWhile (fun c => c ≠ '/')).reverse
    if q = [] then "/".toList else q

/-- The call `strings.LastIndex(s, substr)`: the index of the last occurrence
of `substr` in `s`, or `-1`. -/
def LastIndex : Str → Str → Int
  | [], substr => if substr = [] then 0 else -1
  | c :: t, substr =>
    let r := LastIndex t substr
    if 0 ≤ r then r + 1
    else if (c :: t).take substr.length = substr then 0
    else -1

/-- Function `funcname`: `name[i+1:]` for `i` the last index of `/`, then
`name[i+1:]` for `i` the first index of `.`; a slice out of range faults. -/
def funcname (name : Str) : Option Str :=
  let i := LastIndex name "/".toList
  match sliceFrom name (i + 1) with
  | none => none
  | some name1 =>
    let j := Index name1 ".".toList
    sliceFrom name1 (j + 1)

/-- The cases `'s'`, `'d'` and `'n'` of the `switch verb` of `Frame.Format`,
with `plus` for `s.Flag('+')`: the text written to `s`.  Another verb writes
nothing. -/
def Frame.formatVerb (FuncForPC : Nat → Option Func) (f : Frame) (plus : Bool)
    (verb : Char) : Option Str :=
  if verb = 's' then
    if plus then
      some (Frame.name FuncForPC f ++ "\n\t".toList ++ Frame.file FuncForPC f)
    else some (Base (Frame.file FuncForPC f))
  else if verb = 'd' then some (Itoa (Frame.line FuncForPC f))
  else if verb = 'n' then funcname (Frame.name FuncForPC f)
  else some []

/-- Method `Frame.Format`: the text written to `s`, with `plus` for
`s.Flag('+')`.  The case `'v'` calls `f.Format(s, 's')` and, under the flag,
writes `":"` and calls `f.Format(s, 'd')`. -/
def Frame.Format (FuncForPC : Nat → Option Func) (f : Frame) (plus : Bool)
    (verb : Char) : Option Str :=
  if verb = 'v' then
    if plus then
      match Frame.formatVerb FuncForPC f plus 's', Frame.formatVerb FuncForPC f plus 'd' with
      | some a, some b => some (a ++ ":".toList ++ b)
      | _, _ => none
    else Frame.formatVerb FuncForPC f plus 's'
  else Frame.formatVerb FuncForPC f plus verb

/-- Type `StackTrace`. -/
abbrev StackTrace := List Frame

/-- Method `StackTrace.String`: `formated += fmt.Sprintf("%+v\n", f)` for each
frame in turn, from the text `formated` so far. -/
def StackTrace.stringLoop (FuncForPC : Nat → Option Func) : StackTrace → Str → Option Str
  | [], formated => some formated
  | f :: rest, formated =>
    match Frame.Format FuncForPC f true 'v' with
    | none => none
    | some t => StackTrace.stringLoop FuncForPC rest (formated ++ (t ++ "\n".toList))

/-- Method `StackTrace.String`. -/
def StackTrace.String (FuncForPC : Nat → Option Func) (st : StackTrace) : Option Str :=
  StackTrace.stringLoop FuncForPC st []

/-- Method `(*stack).StackTrace`: `frames[i] = Frame(pc)`. -/
def stack.StackTrace (s : stack) : StackTrace := s.map (fun pc => pc)

/-! ## Reference definitions for the claims -/

/-- The text of `s` after its last `c`; all of `s` when `c` does not occur. -/
def afterLast (c : Char) : Str → Str
  | [] => []
  | a :: t => if c ∈ t then afterLast c t else if a = c then t else a :: t

/-- The text of `s` after its first `c`; all of `s` when `c` does not occur. -/
def afterFirst (c : Char) : Str → Str
  | [] => []
  | a :: t => if a = c then t else if c ∈ t then afterFirst c t else a :: t

/-- The two lines that render one frame in the long combined form: the
function name, then a tab, the file path, `:` and the line number. -/
def frameLines (FuncForPC : Nat → Option Func) (f : Frame) : List Str :=
  [Frame.name FuncForPC f,
    '\t' :: (Frame.file FuncForPC f ++ ":".toList ++ Itoa (Frame.line FuncForPC f))]

/-- A call that changes a filter after its construction. -/
inductive FilterOp where
  /-- The call `f.AddBasePath(pattern)`. -/
  | addBase (pattern : Str) : FilterOp
  /-- The call `f.AddExcludePath(pattern)`. -/
  | addExclude (pattern : Str) : FilterOp

/-- Run a sequence of `AddBasePath` and `AddExcludePath` calls on a filter. -/
def applyOps (MustCompile : Str → Option Regexp) :
    StackTraceFilter → List FilterOp → Option StackTraceFilter
  | f, [] => some f
  | f, FilterOp.addBase pattern :: rest =>
    match AddBasePath MustCompile f pattern with
    | none => none
    | some g => applyOps MustCompile g rest
  | f, FilterOp.addExclude pattern :: rest =>
    match AddExcludePath MustCompile f pattern with
    | none => none
    | some g => applyOps MustCompile g rest

/-- The variant of `FilterOnlyBasePath` that collects the truncated records by
appending to an empty list. -/
def FilterOnlyBasePathFromEmpty (MarshalIndent : List StrMap → Str) (f : StackTraceFilter)
    (basePath rawStack format : Str) : Option Str :=
  match filtered f rawStack with
  | none => none
  | some fl =>
    match truncLoop basePath fl [] with
    | none => none
    | some newFiltered => some (encode MarshalIndent newFiltered format)

/-- An example filter as built by
`NewStackTraceFilter([]string{".*\\.go"}, []string{"vendor"})`. -/
def exampleFilter0 : StackTraceFilter :=
  (NewStackTraceFilter fragmentCompile [".*\\.go".toList] ["vendor".toList]).getD
    { BasePatterns := [], ExcludePatterns := [] }

/-- Two later calls on the example filter: `AddBasePath("app")` and
`AddExcludePath("testdata")`. -/
def exampleOps : List FilterOp :=
  [FilterOp.addBase "app".toList, FilterOp.addExclude "testdata".toList]

/-- The example filter after the two calls. -/
def exampleFilter : StackTraceFilter :=
  (applyOps fragmentCompile exampleFilter0 exampleOps).getD
    { BasePatterns := [], ExcludePatterns := [] }

/-- The lines of the long combined rendering of a stack trace, two for each
frame, in capture order. -/
def stackLines (FuncForPC : Nat → Option Func) (st : StackTrace) : List Str :=
  (st.map (frameLines FuncForPC)).flatten

/-- An example symbol table: the program counter 4 lies in `pkg.Foo`, at line
10 of `/src/app/foo.go`; no other program counter is known. -/
def exampleFuncForPC (pc : Nat) : Option Func :=
  if pc = 4 then
    some { Name := "pkg.Foo".toList, FileLine := fun _ => ("/src/app/foo.go".toList, 10) }
  else none

/-- The first space-separated token of a record. -/
def firstToken (line : Str) : Str := (Split line ' ').headD []

/-- The second space-separated token of a record. -/
def secondToken (line : Str) : Str := (Split line ' ').tail.headD []

/-- The line that `formatPlain` writes for a record of two tokens or more. -/
def plainLineOf (line : Str) : Str :=
  "fn:".toList ++ lastFn (firstToken line) ++ " (".toList ++ secondToken line ++ ")".toList

/-- The object that `formatToJSON` builds for a record of two tokens or more. -/
def jsonObjectOf (line : Str) : StrMap :=
  [("function".toList, lastFn (firstToken line)), ("file".toList, secondToken line)]

/-- An example filter that keeps every location: one base pattern matching
every string and no exclude pattern. -/
def keepAllFilter : StackTraceFilter where
  BasePatterns := [Regexp.mk ".*".toList (fun _ => true)]
  ExcludePatterns := []

/-! ## Theorems: error.go -/

/-- C1: for every non-nil error `e`, `UnwrapError(ErrorWithStack(e))` is `e`
itself, whatever stack was captured; in particular when `e` is itself the
result of `ErrorWithStack`, the result is that inner wrapper, not its cause. -/
theorem UnwrapError_ErrorWithStack (rt : List Nat) (e : GoError) (h : e ≠ GoError.nil) :
    UnwrapError (ErrorWithStack rt e) = e ∧
    (∀ rt2 : List Nat,
      UnwrapError (ErrorWithStack rt2 (ErrorWithStack rt e)) = ErrorWithStack rt e) := by
  have key : ∀ (r : List Nat) (x : GoError), x ≠ GoError.nil →
      UnwrapError (ErrorWithStack r x) = x := by
    intro r x hx
    simp [ErrorWithStack, UnwrapError, As, hx]
  refine ⟨key rt e h, fun rt2 => key rt2 _ ?_⟩
  simp [ErrorWithStack, h]

theorem UnwrapError_ErrorWithStack_witness :
    UnwrapError (ErrorWithStack [7, 8]
        (GoError.WithStack (GoError.foreign "boom".toList GoError.nil) [1])) =
      GoError.WithStack (GoError.foreign "boom".toList GoError.nil) [1] :=
  (UnwrapError_ErrorWithStack [7, 8]
    (GoError.WithStack (GoError.foreign "boom".toList GoError.nil) [1]) (by decide)).1

/-- C2 (as stated, refuted): a message wrapper around a stack wrapper is not a
`*WithStack`, yet `UnwrapError` does not return it unchanged: `errors.As`
walks the `Unwrap` chain, finds the stack wrapper inside and its cause is
returned. -/
theorem UnwrapError_not_identity_on_WithMessage :
    isWithStack (GoError.WithMessage
        (GoError.WithStack (GoError.foreign "boom".toList GoError.nil) [1]) "ctx".toList) = false ∧
    UnwrapError (GoError.WithMessage
        (GoError.WithStack (GoError.foreign "boom".toList GoError.nil) [1]) "ctx".toList) =
      GoError.foreign "boom".toList GoError.nil ∧
    UnwrapError (GoError.WithMessage
        (GoError.WithStack (GoError.foreign "boom".toList GoError.nil) [1]) "ctx".toList) ≠
      GoError.WithMessage
        (GoError.WithStack (GoError.foreign "boom".toList GoError.nil) [1]) "ctx".toList := by
  refine ⟨rfl, rfl, ?_⟩
  have h : UnwrapError (GoError.WithMessage
        (GoError.WithStack (GoError.foreign "boom".toList GoError.nil) [1]) "ctx".toList) =
      GoError.foreign "boom".toList GoError.nil := rfl
  rw [h]
  exact fun e => GoError.noConfusion e

theorem supplied_of_answersAs (x : GoError) (h : answersAs x = true) :
    ∃ r, supplied x = some r := by
  cases x <;> simp [answersAs, supplied] at h ⊢

theorem find_bind_supplied_eq_none (l : List GoError)
    (h : (l.find? answersAs).bind supplied = none) : l.find? answersAs = none := by
  cases hf : l.find? answersAs with
  | none => rfl
  | some x =>
    obtain ⟨r, hr⟩ := supplied_of_answersAs x (List.find?_some hf)
    rw [hf] at h
    simp [hr] at h

mutual
theorem As_eq_find : ∀ err : GoError, As err = ((chain err).find? answersAs).bind supplied
  | .nil => by simp [As, chain]
  | .foreign text inner => by
    simp [As, chain, answersAs, As_eq_find inner]
  | .WithStack e st => by simp [As, chain, answersAs, supplied]
  | .WithMessage c m => by
    simp [As, chain, answersAs, As_eq_find c]
  | .joined text errs => by
    simp [As, chain, answersAs, AsList_eq_find errs]
  | .withAs text e st inner => by simp [As, chain, answersAs, supplied]
theorem AsList_eq_find :
    ∀ errs : List GoError, AsList errs = ((chainList errs).find? answersAs).bind supplied
  | [] => by simp [AsList, chainList]
  | err :: rest => by
    have h1 := As_eq_find err
    have h2 := AsList_eq_find rest
    rw [AsList, chainList, List.find?_append]
    cases hf : (chain err).find? answersAs with
    | some x =>
      rw [hf] at h1
      rw [h1]
      obtain ⟨r, hr⟩ := supplied_of_answersAs x (List.find?_some hf)
      simp [hr]
    | none =>
      rw [hf] at h1
      rw [h1, h2]
      simp
end

theorem As_eq_none_iff (err : GoError) :
    As err = none ↔ ∀ x ∈ chain err, answersAs x = false := by
  rw [As_eq_find]
  constructor
  · intro h x hx
    have hn := find_bind_supplied_eq_none _ h
    have := List.find?_eq_none.1 hn x hx
    simpa using this
  · intro h
    have hn : (chain err).find? answersAs = none :=
      List.find?_eq_none.2 (fun x hx => by simp [h x hx])
    simp [hn]

/-- C2 (amended): `UnwrapError` returns a non-nil error unchanged when
`errors.As` finds no stack wrapper, that is when none of the errors it visits
from `err` (the error itself, then depth first through `Unwrap() error` and
`Unwrap() []error`) has dynamic type `*WithStack` or an `As` method that
supplies one; otherwise it returns the cause of the stack wrapper found
first.  So a message wrapper around a stack wrapper, and an error joining a
plain error with a stack wrapper, are both unwrapped to the cause of that
stack wrapper. -/
theorem UnwrapError_identity_without_WithStack (err : GoError) (h : err ≠ GoError.nil) :
    ((∀ x ∈ chain err, answersAs x = false) → UnwrapError err = err) ∧
    (∀ (x c : GoError) (st : stack),
      (chain err).find? answersAs = some x → supplied x = some (c, st) →
        UnwrapError err = c) ∧
    (∀ (c : GoError) (st : stack) (m : Str),
      UnwrapError (GoError.WithMessage (GoError.WithStack c st) m) = c) ∧
    (∀ (c other : GoError) (st : stack) (t : Str),
      (∀ x ∈ chain other, answersAs x = false) →
        UnwrapError (GoError.joined t [other, GoError.WithStack c st]) = c) := by
  have hsome : ∀ (e x c : GoError) (st : stack), e ≠ GoError.nil →
      (chain e).find? answersAs = some x → supplied x = some (c, st) →
        UnwrapError e = c := by
    intro e x c st he hf hs
    have ha : As e = some (c, st) := by rw [As_eq_find, hf]; simpa using hs
    simp [UnwrapError, he, ha]
  refine ⟨?_, fun x c st => hsome err x c st h, ?_, ?_⟩
  · intro hc
    have hn : As err = none := (As_eq_none_iff err).2 hc
    simp [UnwrapError, hn, h]
  · intro c st m
    exact hsome _ (GoError.WithStack c st) c st (fun e => GoError.noConfusion e)
      (by simp [chain, answersAs]) rfl
  · intro c other st t ho
    have hn : (chain other).find? answersAs = none :=
      List.find?_eq_none.2 (fun x hx => by simp [ho x hx])
    exact hsome _ (GoError.WithStack c st) c st (fun e => GoError.noConfusion e)
      (by simp [chain, chainList, answersAs, List.find?_append, hn]) rfl

theorem UnwrapError_identity_without_WithStack_witness :
    UnwrapError (GoError.WithMessage (GoError.foreign "boom".toList GoError.nil) "ctx".toList) =
      GoError.WithMessage (GoError.foreign "boom".toList GoError.nil) "ctx".toList ∧
    UnwrapError (GoError.joined "x other y boom".toList
        [GoError.foreign "other".toList GoError.nil,
          GoError.WithStack (GoError.foreign "boom".toList GoError.nil) [1]]) =
      GoError.foreign "boom".toList GoError.nil :=
  ⟨(UnwrapError_identity_without_WithStack
      (GoError.WithMessage (GoError.foreign "boom".toList GoError.nil) "ctx".toList)
      (by decide)).1 (by decide),
    (UnwrapError_identity_without_WithStack
      (GoError.WithMessage (GoError.foreign "boom".toList GoError.nil) "ctx".toList)
      (by decide)).2.2.2 (GoError.foreign "boom".toList GoError.nil)
      (GoError.foreign "other".toList GoError.nil) [1] "x other y boom".toList (by decide)⟩

/-- C3: `ErrorWithStack(nil)`, `ErrorWithMessage(nil, m)`, `WrapWithMessage(nil, m)`
and `UnwrapError(nil)` are nil for every message `m`, and each of the three
constructors returns a non-nil error when its error argument is non-nil. -/
theorem nil_in_nil_out (rt : List Nat) (m : Str) :
    ErrorWithStack rt GoError.nil = GoError.nil ∧
    ErrorWithMessage GoError.nil m = GoError.nil ∧
    WrapWithMessage rt GoError.nil m = GoError.nil ∧
    UnwrapError GoError.nil = GoError.nil ∧
    (∀ e : GoError, e ≠ GoError.nil →
      ErrorWithStack rt e ≠ GoError.nil ∧
      ErrorWithMessage e m ≠ GoError.nil ∧
      WrapWithMessage rt e m ≠ GoError.nil) := by
  refine ⟨by simp [ErrorWithStack], by simp [ErrorWithMessage], by simp [WrapWithMessage],
    by simp [UnwrapError], ?_⟩
  intro e he
  simp [ErrorWithStack, ErrorWithMessage, WrapWithMessage, he]

theorem nil_in_nil_out_witness :
    ErrorWithStack [3] (GoError.foreign "boom".toList GoError.nil) ≠ GoError.nil ∧
    ErrorWithMessage (GoError.foreign "boom".toList GoError.nil) "ctx".toList ≠ GoError.nil ∧
    WrapWithMessage [3] (GoError.foreign "boom".toList GoError.nil) "ctx".toList ≠ GoError.nil :=
  (nil_in_nil_out [3] "ctx".toList).2.2.2.2 (GoError.foreign "boom".toList GoError.nil)
    (by decide)

/-- C4: for every non-nil error `e` and message `m`, the text of
`ErrorWithMessage(e, m)` is `m`, then `": "`, then the text of `e` (and
rendering faults exactly when rendering `e` does); hence
`ErrorWithMessage(ErrorWithMessage(e, b), a)` renders as
`a + ": " + b + ": " + e.Error()`. -/
theorem ErrorWithMessage_Error (e : GoError) (m : Str) (h : e ≠ GoError.nil) :
    Error (ErrorWithMessage e m) = (Error e).map (fun t => m ++ ": ".toList ++ t) ∧
    (∀ a t : Str, Error e = some t →
      Error (ErrorWithMessage (ErrorWithMessage e m) a) =
        some (a ++ ": ".toList ++ m ++ ": ".toList ++ t)) := by
  constructor
  · simp [ErrorWithMessage, h, Error]
  · intro a t ht
    simp [ErrorWithMessage, h, Error, ht]

theorem ErrorWithMessage_Error_witness :
    Error (ErrorWithMessage
        (ErrorWithMessage (GoError.foreign "boom".toList GoError.nil) "b".toList) "a".toList) =
      some "a: b: boom".toList :=
  (ErrorWithMessage_Error (GoError.foreign "boom".toList GoError.nil) "b".toList
    (by decide)).2 "a".toList "boom".toList rfl

/-- C5: for every non-nil error `e` and message `m`, `WrapWithMessage(e, m)` is
a stack wrapper (holding the captured stack) whose `Cause()` and `Unwrap()`
are a message wrapper with message `m` whose `Cause()` and `Unwrap()` are
`e`, and its text is `m + ": " + e.Error()`. -/
theorem WrapWithMessage_chain (rt : List Nat) (e : GoError) (m : Str) (h : e ≠ GoError.nil) :
    WrapWithMessage rt e m = GoError.WithStack (GoError.WithMessage e m) (callers rt) ∧
    isWithStack (WrapWithMessage rt e m) = true ∧
    Cause (WrapWithMessage rt e m) = some (GoError.WithMessage e m) ∧
    Unwrap (WrapWithMessage rt e m) = some (GoError.WithMessage e m) ∧
    isWithMessage (GoError.WithMessage e m) = true ∧
    Cause (GoError.WithMessage e m) = some e ∧
    Unwrap (GoError.WithMessage e m) = some e ∧
    chain (WrapWithMessage rt e m) =
      GoError.WithStack (GoError.WithMessage e m) (callers rt) ::
        GoError.WithMessage e m :: chain e ∧
    Error (WrapWithMessage rt e m) = (Error e).map (fun t => m ++ ": ".toList ++ t) := by
  simp [WrapWithMessage, h, isWithStack, isWithMessage, Cause, Unwrap, chain, Error]

theorem WrapWithMessage_chain_witness :
    Error (WrapWithMessage [5, 6] (GoError.foreign "boom".toList GoError.nil) "ctx".toList) =
      some "ctx: boom".toList :=
  (WrapWithMessage_chain [5, 6] (GoError.foreign "boom".toList GoError.nil) "ctx".toList
    (by decide)).2.2.2.2.2.2.2.2

/-! ## Theorems: stack_filter.go -/

theorem rangeMatch_eq_true_iff (ps : List Regexp) (location : Str) :
    rangeMatch ps location = true ↔ ∃ p ∈ ps, p.MatchString location = true := by
  induction ps with
  | nil => simp [rangeMatch]
  | cons p rest ih =>
    by_cases hp : p.MatchString location = true
    · simp [rangeMatch, hp]
    · simp [rangeMatch, hp, ih]

theorem rangeMatch_eq_false_iff (ps : List Regexp) (location : Str) :
    rangeMatch ps location = false ↔ ∀ p ∈ ps, p.MatchString location = false := by
  induction ps with
  | nil => simp [rangeMatch]
  | cons p rest ih =>
    by_cases hp : p.MatchString location = true
    · simp [rangeMatch, hp]
    · simp [rangeMatch, hp, ih]

theorem keep_test_eq (f : StackTraceFilter) (location : Str) :
    (isInBasePaths f location && !isInExcludePaths f location) = decide (keeps f location) := by
  by_cases hk : keeps f location
  · have h1 := (rangeMatch_eq_true_iff f.BasePatterns location).2 hk.1
    have h2 := (rangeMatch_eq_false_iff f.ExcludePatterns location).2 hk.2
    simp [isInBasePaths, isInExcludePaths, h1, h2, hk]
  · have : (isInBasePaths f location && !isInExcludePaths f location) = false := by
      by_contra hne
      have ht : (isInBasePaths f location && !isInExcludePaths f location) = true := by
        simpa using hne
      simp only [Bool.and_eq_true, Bool.not_eq_true'] at ht
      exact hk ⟨(rangeMatch_eq_true_iff _ _).1 ht.1, (rangeMatch_eq_false_iff _ _).1 ht.2⟩
    simp [this, hk]

theorem framePairs_short (l : List Str) (h : l.length ≤ 1) : framePairs l = [] := by
  match l, h with
  | [], _ => rfl
  | [_], _ => rfl
  | _ :: _ :: _, h => simp at h

theorem filterLoop_eq (f : StackTraceFilter) (lines : List Str) :
    ∀ (fuel i : Nat) (acc : List Str), lines.length ≤ i + 2 * fuel →
      filterLoop f lines fuel i acc =
        some (acc ++
          ((((framePairs (lines.drop i)).map (fun p => (TrimSpace p.1, TrimSpace p.2))).filter
            (fun fr => decide (keeps f fr.2))).map (fun fr => record fr.1 fr.2))) := by
  intro fuel
  induction fuel with
  | zero =>
    intro i acc h
    have hd : lines.drop i = [] := List.drop_eq_nil_of_le (by omega)
    have hc : ¬ ((i : Int) < (lines.length : Int) - 1) := by omega
    simp [filterLoop, hc, hd, framePairs]
  | succ fuel ih =>
    intro i acc h
    by_cases hc : (i : Int) < (lines.length : Int) - 1
    · have h0 : i < lines.length := by omega
      have h1 : i + 1 < lines.length := by omega
      have hd : lines.drop i = lines[i] :: lines[i + 1] :: lines.drop (i + 2) := by
        rw [List.drop_eq_getElem_cons h0, List.drop_eq_getElem_cons h1]
      have g0 : lines.get? i = some lines[i] := by
        rw [List.get?_eq_getElem?, List.getElem?_eq_getElem h0]
      have g1 : lines.get? (i + 1) = some lines[i + 1] := by
        rw [List.get?_eq_getElem?, List.getElem?_eq_getElem h1]
      rw [filterLoop, if_pos hc, g0, g1]
      simp only [keep_test_eq]
      rw [hd]
      by_cases hk : keeps f (TrimSpace lines[i + 1])
      · simp only [hk, decide_True, if_true]
        rw [ih (i + 2) _ (by omega)]
        simp [framePairs, List.filter_cons, hk, List.append_assoc]
      · simp only [hk, decide_False, Bool.false_eq_true, if_false]
        rw [ih (i + 2) _ (by omega)]
        simp [framePairs, List.filter_cons, hk]
    · have hd : framePairs (lines.drop i) = [] :=
        framePairs_short _ (by rw [List.length_drop]; omega)
      cases fuel <;> simp [filterLoop, hc, hd]

theorem filtered_eq (f : StackTraceFilter) (rawStack : Str) :
    filtered f rawStack = some ((keptFrames f rawStack).map (fun fr => record fr.1 fr.2)) := by
  unfold filtered
  rw [filterLoop_eq f _ _ 0 [] (by omega)]
  simp [keptFrames, frames]

/-- C6: for every filter and raw stack, the records `Filter` collects are those
of the frames (pairs of lines, trimmed) whose location matches at least one
base pattern and no exclude pattern, in input order; a frame is among them
exactly when its location passes that test, and the output of `Filter` is
the encoding of these records and of nothing else. -/
theorem Filter_keeps_iff (MarshalIndent : List StrMap → Str) (f : StackTraceFilter)
    (rawStack format : Str) :
    filtered f rawStack = some ((keptFrames f rawStack).map (fun fr => record fr.1 fr.2)) ∧
    (∀ fr : Str × Str, fr ∈ keptFrames f rawStack ↔
      fr ∈ frames rawStack ∧
        (∃ p ∈ f.BasePatterns, p.MatchString fr.2 = true) ∧
        (∀ p ∈ f.ExcludePatterns, p.MatchString fr.2 = false)) ∧
    (keptFrames f rawStack).Sublist (frames rawStack) ∧
    Filter MarshalIndent f rawStack format =
      some (encode MarshalIndent
        ((keptFrames f rawStack).map (fun fr => record fr.1 fr.2)) format) := by
  refine ⟨filtered_eq f rawStack, ?_, ?_, ?_⟩
  · intro fr
    simp [keptFrames, keeps]
  · exact List.filter_sublist _
  · simp [Filter, filtered_eq]

/-- C7 (the code at the scenario of the claim): with base pattern `foo\.go` and
no extra excludes, the plain output of `Filter` on the two-frame scenario is
`fn:Foo ((/src/app/foo.go:10))`: the record `pkg.Foo (/src/app/foo.go:10)`
already carries the parentheses, `formatPlain` takes its second token as it
is and wraps it again, so the location is not rendered as
`(/src/app/foo.go:10)`. -/
theorem Filter_plain_scenario (MarshalIndent : List StrMap → Str) :
    (NewStackTraceFilter fragmentCompile ["foo\\.go".toList] []).bind
        (fun f => Filter MarshalIndent f scenarioStack "plain".toList) =
      some "fn:Foo ((/src/app/foo.go:10))".toList ∧
    (NewStackTraceFilter fragmentCompile ["foo\\.go".toList] []).bind
        (fun f => Filter MarshalIndent f scenarioStack "plain".toList) ≠
      some "fn:Foo (/src/app/foo.go:10)".toList := by
  have h : (NewStackTraceFilter fragmentCompile ["foo\\.go".toList] []).bind
        (fun f => Filter MarshalIndent f scenarioStack "plain".toList) =
      some "fn:Foo ((/src/app/foo.go:10))".toList := rfl
  refine ⟨h, ?_⟩
  rw [h]
  decide

/-- C8 (the code at the scenario of the claim): with format `json`, `Filter`
hands `json.MarshalIndent` one object for the kept frame whose `file` value
is `(/src/app/foo.go:10)`, the location inside the parentheses of the
record, not the location `/src/app/foo.go:10` itself. -/
theorem Filter_json_scenario (MarshalIndent : List StrMap → Str) :
    (NewStackTraceFilter fragmentCompile ["foo\\.go".toList] []).bind
        (fun f => Filter MarshalIndent f scenarioStack "json".toList) =
      some (MarshalIndent
        [[("function".toList, "Foo".toList), ("file".toList, "(/src/app/foo.go:10)".toList)]]) ∧
    (NewStackTraceFilter fragmentCompile ["foo\\.go".toList] []).bind
        (fun f => (keptFrames f scenarioStack).map (fun fr => fr.2)) =
      some ["/src/app/foo.go:10".toList] :=
  ⟨rfl, by decide⟩

/-- C9 (the code at a failing input): with the default filter, the marker
`/app` and the one-frame stack `pkg.Foo` at `/src/app/foo.go:10`, the kept
record `pkg.Foo (/src/app/foo.go:10)` is cut to `/app/foo.go:10)`: the
function is lost with the text before the marker, the cut record has one
token only, and `FilterOnlyBasePath` returns the empty string in both
formats, while `Filter` reports the frame. -/
theorem FilterOnlyBasePath_drops_function (MarshalIndent : List StrMap → Str) :
    (NewStackTraceFilter fragmentCompile [] []).bind
        (fun f => FilterOnlyBasePath MarshalIndent f "/app".toList
          "pkg.Foo\n\t/src/app/foo.go:10\n".toList "plain".toList) = some [] ∧
    (NewStackTraceFilter fragmentCompile [] []).bind
        (fun f => FilterOnlyBasePath MarshalIndent f "/app".toList
          "pkg.Foo\n\t/src/app/foo.go:10\n".toList "json".toList) = some [] ∧
    (NewStackTraceFilter fragmentCompile [] []).bind
        (fun f => (filtered f "pkg.Foo\n\t/src/app/foo.go:10\n".toList).bind
          (fun fl => truncLoop "/app".toList fl (List.replicate fl.length []))) =
      some [[], "/app/foo.go:10)".toList] ∧
    (NewStackTraceFilter fragmentCompile [] []).bind
        (fun f => Filter MarshalIndent f
          "pkg.Foo\n\t/src/app/foo.go:10\n".toList "plain".toList) =
      some "fn:Foo ((/src/app/foo.go:10))".toList :=
  ⟨rfl, rfl, by decide, rfl⟩

theorem Split_ne_nil (s : Str) (sep : Char) : Split s sep ≠ [] := by
  induction s with
  | nil => simp [Split]
  | cons c cs ih =>
    unfold Split
    split
    · simp
    · split <;> simp

theorem Split_eq_singleton (s : Str) (sep : Char) (h : sep ∉ s) : Split s sep = [s] := by
  induction s with
  | nil => simp [Split]
  | cons c cs ih =>
    have hc : c ≠ sep := fun e => h (by simp [e])
    have hcs : sep ∉ cs := fun e => h (by simp [e])
    simp [Split, hc, ih hcs]

theorem plainLoop_malformed (lines : List Str) :
    ∀ acc : List Str, (∃ line ∈ lines, line ≠ [] ∧ ' ' ∉ line) → plainLoop lines acc = none := by
  induction lines with
  | nil => intro acc h; simp at h
  | cons l rest ih =>
    intro acc h
    obtain ⟨line, hmem, hne, hsp⟩ := h
    rcases List.mem_cons.1 hmem with rfl | hrest
    · simp [plainLoop, hne, Split_eq_singleton _ _ hsp]
    · have hr := fun a => ih a ⟨line, hrest, hne, hsp⟩
      unfold plainLoop
      split
      · exact hr _
      · split
        · exact hr _
        · rfl

theorem jsonLoop_malformed (lines : List Str) :
    ∀ acc : List StrMap, (∃ line ∈ lines, line ≠ [] ∧ ' ' ∉ line) →
      ∃ e, jsonLoop lines acc = Except.error e := by
  induction lines with
  | nil => intro acc h; simp at h
  | cons l rest ih =>
    intro acc h
    obtain ⟨line, hmem, hne, hsp⟩ := h
    rcases List.mem_cons.1 hmem with rfl | hrest
    · exact ⟨"invalid stack trace format: ".toList ++ line,
        by simp [jsonLoop, hne, Split_eq_singleton _ _ hsp]⟩
    · have hr := fun a => ih a ⟨line, hrest, hne, hsp⟩
      unfold jsonLoop
      split
      · exact hr _
      · split
        · exact hr _
        · exact ⟨_, rfl⟩

/-- C10: when the input of the encoders has a non-empty line without a space
(fewer than two space-separated tokens), `formatToJSON` returns an error and
no bytes, and `formatPlain` returns the empty string, whatever the other
lines are. -/
theorem malformed_record (MarshalIndent : List StrMap → Str) (stackTrace line : Str)
    (hmem : line ∈ Split stackTrace '\n') (hne : line ≠ []) (hsp : ' ' ∉ line) :
    (∃ e, formatToJSON MarshalIndent stackTrace = Except.error e) ∧
    formatPlain stackTrace = [] := by
  constructor
  · obtain ⟨e, he⟩ := jsonLoop_malformed (Split stackTrace '\n') [] ⟨line, hmem, hne, hsp⟩
    exact ⟨e, by simp [formatToJSON, he]⟩
  · simp [formatPlain, plainLoop_malformed (Split stackTrace '\n') [] ⟨line, hmem, hne, hsp⟩]

theorem malformed_record_witness :
    (∃ e, formatToJSON (fun _ => "[]".toList) "a.F x.go:1\nbroken\nb.G y.go:2".toList =
      Except.error e) ∧
    formatPlain "a.F x.go:1\nbroken\nb.G y.go:2".toList = [] :=
  malformed_record (fun _ => "[]".toList) "a.F x.go:1\nbroken\nb.G y.go:2".toList
    "broken".toList (by decide) (by decide) (by decide)

/-! ## Theorems: the pattern sets of a filter -/

theorem matchAnywhere_of_matchHere (re : List (Atom × Bool)) (x : Str)
    (h : matchHere re x = true) : ∀ pre : Str, matchAnywhere re (pre ++ x) = true := by
  intro pre
  induction pre with
  | nil =>
    cases x with
    | nil => simpa [matchAnywhere] using h
    | cons c cs => simp [matchAnywhere, h]
  | cons a pre ih => simp [matchAnywhere, ih]

theorem fragmentCompile_dotStar (r : Regexp) (hr : fragmentCompile ".*".toList = some r)
    (s : Str) : r.MatchString s = true := by
  have hc : fragmentCompile ".*".toList =
      some { expr := ".*".toList, MatchString := matchAnywhere [(Atom.dot, true)] } := rfl
  rw [hc] at hr
  cases hr
  have hh : matchHere [(Atom.dot, true)] s = true := by
    cases s <;> simp [matchHere, matchStar]
  simpa using matchAnywhere_of_matchHere _ s hh []

theorem fragmentCompile_stack_filter (r : Regexp)
    (hr : fragmentCompile "stack_filter.go".toList = some r) (s : Str)
    (hs : "stack_filter.go".toList <:+: s) : r.MatchString s = true := by
  have hc : ∃ re, parsePattern "stack_filter.go".toList = some re ∧
      (∀ suf : Str, matchHere re ("stack_filter.go".toList ++ suf) = true) ∧
      fragmentCompile "stack_filter.go".toList =
        some { expr := "stack_filter.go".toList, MatchString := matchAnywhere re } := by
    refine ⟨_, rfl, ?_, rfl⟩
    intro suf
    simp [matchHere, Atom.accepts]
  obtain ⟨re, _, hm, hf⟩ := hc
  rw [hf] at hr
  cases hr
  obtain ⟨pre, suf, rfl⟩ := hs
  have := matchAnywhere_of_matchHere re ("stack_filter.go".toList ++ suf) (hm suf) pre
  simpa [List.append_assoc] using this

theorem compilePatterns_forall₂ (MustCompile : Str → Option Regexp) :
    ∀ (l : List Str) (rs : List Regexp), compilePatterns MustCompile l = some rs →
      List.Forall₂ (fun p r => MustCompile p = some r) l rs := by
  intro l
  induction l with
  | nil =>
    intro rs h
    simp only [compilePatterns, Option.some.injEq] at h
    subst h
    exact List.Forall₂.nil
  | cons p rest ih =>
    intro rs h
    unfold compilePatterns at h
    cases hm : MustCompile p with
    | none => simp [hm] at h
    | some r =>
      cases hc : compilePatterns MustCompile rest with
      | none => simp [hm, hc] at h
      | some rs1 =>
        simp only [hm, hc, Option.some.injEq] at h
        subst h
        exact List.Forall₂.cons hm (ih rs1 hc)

theorem NewStackTraceFilter_eq_some (MustCompile : Str → Option Regexp)
    (base ex : List Str) (f : StackTraceFilter)
    (h : NewStackTraceFilter MustCompile base ex = some f) :
    compilePatterns MustCompile (if base.length = 0 then [".*".toList] else base) =
      some f.BasePatterns ∧
    compilePatterns MustCompile
      (if ex.length = 0 then defaultExclude else ex ++ defaultExclude) =
      some f.ExcludePatterns := by
  unfold NewStackTraceFilter at h
  dsimp only at h
  cases hb : compilePatterns MustCompile (if base.length = 0 then [".*".toList] else base) with
  | none =>
    rw [hb] at h
    cases h
  | some b =>
    cases he : compilePatterns MustCompile
        (if ex.length = 0 then defaultExclude else ex ++ defaultExclude) with
    | none =>
      rw [hb, he] at h
      cases h
    | some e =>
      rw [hb, he] at h
      cases h
      exact ⟨rfl, rfl⟩

/-- C11: a filter built with an empty base-pattern list is the filter built
with the base patterns `[".*"]` and the same excludes, so `Filter` gives the
same output for every raw stack and format; and when `.*` compiles to a
pattern that matches every string, every location passes the base-pattern
test of such a filter. -/
theorem empty_base_is_match_all (MustCompile : Str → Option Regexp)
    (MarshalIndent : List StrMap → Str) (ex : List Str) (rawStack format : Str)
    (hall : ∀ r, MustCompile ".*".toList = some r → ∀ s, r.MatchString s = true) :
    NewStackTraceFilter MustCompile [] ex = NewStackTraceFilter MustCompile [".*".toList] ex ∧
    (NewStackTraceFilter MustCompile [] ex).bind
        (fun f => Filter MarshalIndent f rawStack format) =
      (NewStackTraceFilter MustCompile [".*".toList] ex).bind
        (fun f => Filter MarshalIndent f rawStack format) ∧
    (∀ f, NewStackTraceFilter MustCompile [] ex = some f →
      ∀ location, isInBasePaths f location = true) := by
  refine ⟨rfl, rfl, ?_⟩
  intro f hf location
  have hb := (NewStackTraceFilter_eq_some MustCompile [] ex f hf).1
  have h2 := compilePatterns_forall₂ MustCompile _ _ hb
  rcases f with ⟨b, e⟩
  simp only [List.length_nil, if_true] at h2
  cases h2 with
  | cons hr hrest =>
    cases hrest
    simp [isInBasePaths, rangeMatch, hall _ hr location]

theorem empty_base_is_match_all_witness :
    (NewStackTraceFilter fragmentCompile [] []).bind
        (fun f => some (isInBasePaths f "/src/app/foo.go:10".toList)) = some true := by
  have h := (empty_base_is_match_all fragmentCompile (fun _ => []) [] scenarioStack
    "plain".toList fragmentCompile_dotStar).2.2
  have hs : (NewStackTraceFilter fragmentCompile [] []).isSome = true := rfl
  cases hf : NewStackTraceFilter fragmentCompile [] [] with
  | none => rw [hf] at hs; cases hs
  | some f => simp [h f hf]

theorem compilePatterns_mem (MustCompile : Str → Option Regexp) (l : List Str)
    (rs : List Regexp) (h : compilePatterns MustCompile l = some rs) (p : Str) (hp : p ∈ l) :
    ∃ r ∈ rs, MustCompile p = some r := by
  have h2 := compilePatterns_forall₂ MustCompile l rs h
  induction h2 with
  | nil => simp at hp
  | cons hr _ ih =>
    rename_i a b l1 l2 hrest
    have hc : compilePatterns MustCompile l1 = some l2 := by
      unfold compilePatterns at h
      rw [hr] at h
      cases hc : compilePatterns MustCompile l1 with
      | none => rw [hc] at h; cases h
      | some x => rw [hc] at h; cases h; rfl
    rcases List.mem_cons.1 hp with rfl | hp1
    · exact ⟨b, by simp, hr⟩
    · obtain ⟨r, hr1, hr2⟩ := ih hc hp1
      exact ⟨r, by simp [hr1], hr2⟩

theorem NewStackTraceFilter_defaults (MustCompile : Str → Option Regexp)
    (base ex : List Str) (f : StackTraceFilter)
    (h : NewStackTraceFilter MustCompile base ex = some f) :
    ∀ p ∈ defaultExclude, ∃ r ∈ f.ExcludePatterns, MustCompile p = some r := by
  intro p hp
  have he := (NewStackTraceFilter_eq_some MustCompile base ex f h).2
  refine compilePatterns_mem MustCompile _ _ he p ?_
  split
  · exact hp
  · exact List.mem_append_right _ hp

theorem applyOps_defaults (MustCompile : Str → Option Regexp) (ops : List FilterOp) :
    ∀ (f0 f : StackTraceFilter), applyOps MustCompile f0 ops = some f →
      (∀ p ∈ defaultExclude, ∃ r ∈ f0.ExcludePatterns, MustCompile p = some r) →
      ∀ p ∈ defaultExclude, ∃ r ∈ f.ExcludePatterns, MustCompile p = some r := by
  induction ops with
  | nil =>
    intro f0 f h inv
    simp only [applyOps, Option.some.injEq] at h
    subst h
    exact inv
  | cons op rest ih =>
    intro f0 f h inv
    cases op with
    | addBase pattern =>
      unfold applyOps AddBasePath at h
      cases hm : MustCompile pattern with
      | none => rw [hm] at h; cases h
      | some r =>
        rw [hm] at h
        exact ih _ f h inv
    | addExclude pattern =>
      unfold applyOps AddExcludePath at h
      cases hm : MustCompile pattern with
      | none => rw [hm] at h; cases h
      | some r =>
        rw [hm] at h
        refine ih _ f h ?_
        intro p hp
        obtain ⟨r1, hr1, hr2⟩ := inv p hp
        exact ⟨r1, List.mem_append_left _ hr1, hr2⟩

/-- C12: take a filter built by `NewStackTraceFilter` from any base and exclude
lists, then changed by any sequence of `AddBasePath` and `AddExcludePath`
calls.  Its exclude set still holds the compiled built-in excludes; and when
the pattern `stack_filter.go` compiles to one that matches every string
containing that file name, no frame whose location contains
`stack_filter.go` is kept by `Filter`, whatever the base patterns are. -/
theorem default_excludes_persist (MustCompile : Str → Option Regexp)
    (MarshalIndent : List StrMap → Str) (base ex : List Str) (ops : List FilterOp)
    (f0 f : StackTraceFilter)
    (hsf : ∀ r, MustCompile "stack_filter.go".toList = some r →
      ∀ s, "stack_filter.go".toList <:+: s → r.MatchString s = true)
    (h0 : NewStackTraceFilter MustCompile base ex = some f0)
    (hops : applyOps MustCompile f0 ops = some f) :
    (∀ p ∈ defaultExclude, ∃ r ∈ f.ExcludePatterns, MustCompile p = some r) ∧
    (∀ (rawStack format : Str),
      (∀ fr ∈ frames rawStack, "stack_filter.go".toList <:+: fr.2 →
        isInExcludePaths f fr.2 = true ∧ fr ∉ keptFrames f rawStack) ∧
      (∀ fr ∈ keptFrames f rawStack, ¬ "stack_filter.go".toList <:+: fr.2) ∧
      Filter MarshalIndent f rawStack format =
        some (encode MarshalIndent
          ((keptFrames f rawStack).map (fun fr => record fr.1 fr.2)) format)) := by
  have inv := applyOps_defaults MustCompile ops f0 f hops
    (NewStackTraceFilter_defaults MustCompile base ex f0 h0)
  have hex : ∀ s : Str, "stack_filter.go".toList <:+: s → isInExcludePaths f s = true := by
    intro s hs
    obtain ⟨r, hr, hc⟩ := inv "stack_filter.go".toList (by simp [defaultExclude])
    exact (rangeMatch_eq_true_iff _ _).2 ⟨r, hr, hsf r hc s hs⟩
  refine ⟨inv, fun rawStack format => ⟨?_, ?_, ?_⟩⟩
  · intro fr _ hs
    refine ⟨hex _ hs, fun hk => ?_⟩
    have hkeep : keeps f fr.2 := by
      simpa [keptFrames] using (List.mem_filter.1 hk).2
    obtain ⟨r, hr, hm⟩ := (rangeMatch_eq_true_iff _ _).1 (hex _ hs)
    have := hkeep.2 r hr
    rw [hm] at this
    cases this
  · intro fr hk hs
    have hkeep : keeps f fr.2 := by
      simpa [keptFrames] using (List.mem_filter.1 hk).2
    obtain ⟨r, hr, hm⟩ := (rangeMatch_eq_true_iff _ _).1 (hex _ hs)
    have := hkeep.2 r hr
    rw [hm] at this
    cases this
  · simp [Filter, filtered_eq]

theorem default_excludes_persist_witness :
    isInExcludePaths exampleFilter "/go/cerror/stack_filter.go:57".toList = true ∧
    ("cerror.Filter".toList, "/go/cerror/stack_filter.go:57".toList) ∉
      keptFrames exampleFilter "cerror.Filter\n\t/go/cerror/stack_filter.go:57\n".toList :=
  ((default_excludes_persist fragmentCompile (fun _ => []) [".*\\.go".toList]
    ["vendor".toList] exampleOps exampleFilter0 exampleFilter fragmentCompile_stack_filter
    rfl rfl).2 "cerror.Filter\n\t/go/cerror/stack_filter.go:57\n".toList "plain".toList).1
    ("cerror.Filter".toList, "/go/cerror/stack_filter.go:57".toList) (by decide)
    ⟨"/go/cerror/".toList, ":57".toList, rfl⟩

/-! ## Theorems: trailing identifiers -/

theorem Split_append_sep (sep : Char) (l rest : Str) (h : sep ∉ l) :
    Split (l ++ sep :: rest) sep = l :: Split rest sep := by
  induction l with
  | nil => simp [Split]
  | cons c cs ih =>
    have hc : c ≠ sep := fun e => h (by simp [e])
    have hcs : sep ∉ cs := fun e => h (by simp [e])
    simp [Split, hc, ih hcs]

theorem Split_two_le (sep : Char) (s : Str) (h : sep ∈ s) :
    ∃ a b rest, Split s sep = a :: b :: rest := by
  induction s with
  | nil => simp at h
  | cons c cs ih =>
    by_cases hc : c = sep
    · obtain ⟨p, ps, hp⟩ := List.exists_cons_of_ne_nil (Split_ne_nil cs sep)
      exact ⟨[], p, ps, by simp [Split, hc, hp]⟩
    · have hcs : sep ∈ cs := by
        rcases List.mem_cons.1 h with e | e
        · exact absurd e.symm hc
        · exact e
      obtain ⟨a, b, rest, hab⟩ := ih hcs
      exact ⟨c :: a, b, rest, by simp [Split, hc, hab]⟩

theorem afterLast_not_mem (c : Char) (s : Str) (h : c ∉ s) : afterLast c s = s := by
  cases s with
  | nil => rfl
  | cons a t =>
    have ha : a ≠ c := fun e => h (by simp [e])
    have ht : c ∉ t := fun e => h (by simp [e])
    simp [afterLast, ha, ht]

theorem afterLast_spec (c : Char) (s : Str) :
    c ∉ afterLast c s ∧ (c ∈ s → ∃ pre, s = pre ++ c :: afterLast c s) := by
  induction s with
  | nil => simp [afterLast]
  | cons a t ih =>
    by_cases ht : c ∈ t
    · obtain ⟨pre, hpre⟩ := ih.2 ht
      refine ⟨by simpa [afterLast, ht] using ih.1, fun _ => ⟨a :: pre, ?_⟩⟩
      simp only [afterLast, ht, if_true, List.cons_append]
      rw [← hpre]
    · by_cases ha : a = c
      · subst ha
        exact ⟨by simp [afterLast, ht], fun _ => ⟨[], by simp [afterLast, ht]⟩⟩
      · refine ⟨?_, fun hm => ?_⟩
        · simp only [afterLast, ht, ha, if_false]
          intro hm
          rcases List.mem_cons.1 hm with e | e
          · exact ha e.symm
          · exact ht e
        · rcases List.mem_cons.1 hm with e | e
          · exact absurd e.symm ha
          · exact absurd e ht

theorem lastFn_eq_afterLast (name : Str) : lastFn name = afterLast '.' name := by
  unfold lastFn
  induction name with
  | nil => simp [Split, afterLast]
  | cons a t ih =>
    by_cases ht : '.' ∈ t
    · obtain ⟨p, q, rest, hs⟩ := Split_two_le '.' t ht
      rw [hs] at ih
      by_cases ha : a = '.'
      · simp only [Split, ha, if_true, hs, afterLast, ht]
        simpa [List.getLastD_cons] using ih
      · simp only [Split, ha, if_false, hs, afterLast, ht, if_true]
        simpa [List.getLastD_cons] using ih
    · have hs := Split_eq_singleton t '.' ht
      by_cases ha : a = '.'
      · simp [Split, ha, hs, afterLast, ht]
      · simp [Split, ha, hs, afterLast, ht]

/-- C13: for a line made of a first token `tok`, a space and the rest, the
object that the JSON encoder appends has as its `function` value the text of
`tok` after its last `.` (all of `tok` when it has none) and as its `file`
value the second token; a record whose function is
`pkg/mod.Receiver.Method` gives `"function": "Method"`. -/
theorem formatToJSON_function (MarshalIndent : List StrMap → Str) (tok tail : Str)
    (hsp : ' ' ∉ tok) (hnl : '\n' ∉ tok ++ ' ' :: tail) :
    (∀ (rest : List Str) (acc : List StrMap),
      jsonLoop ((tok ++ ' ' :: tail) :: rest) acc =
        jsonLoop rest (acc ++ [[("function".toList, afterLast '.' tok),
          ("file".toList, (Split tail ' ').headD [])]])) ∧
    formatToJSON MarshalIndent (tok ++ ' ' :: tail) =
      Except.ok (MarshalIndent [[("function".toList, afterLast '.' tok),
        ("file".toList, (Split tail ' ').headD [])]]) ∧
    '.' ∉ afterLast '.' tok ∧
    ('.' ∈ tok → ∃ pre, tok = pre ++ '.' :: afterLast '.' tok) ∧
    ('.' ∉ tok → afterLast '.' tok = tok) ∧
    formatToJSON MarshalIndent "pkg/mod.Receiver.Method /src/mod/m.go:7".toList =
      Except.ok (MarshalIndent [[("function".toList, "Method".toList),
        ("file".toList, "/src/mod/m.go:7".toList)]]) := by
  have hloop : ∀ (rest : List Str) (acc : List StrMap),
      jsonLoop ((tok ++ ' ' :: tail) :: rest) acc =
        jsonLoop rest (acc ++ [[("function".toList, afterLast '.' tok),
          ("file".toList, (Split tail ' ').headD [])]]) := by
    intro rest acc
    obtain ⟨p1, ps, hp⟩ := List.exists_cons_of_ne_nil (Split_ne_nil tail ' ')
    have hne : tok ++ ' ' :: tail ≠ [] := by simp
    rw [jsonLoop, if_neg hne, Split_append_sep ' ' tok tail hsp, hp]
    simp [lastFn_eq_afterLast]
  refine ⟨hloop, ?_, (afterLast_spec '.' tok).1, (afterLast_spec '.' tok).2,
    afterLast_not_mem '.' tok, rfl⟩
  rw [formatToJSON, Split_eq_singleton _ _ hnl, hloop]
  simp [jsonLoop]

theorem formatToJSON_function_witness :
    formatToJSON (fun v => (v.map (fun o => (o.map Prod.snd).flatten)).flatten)
        ("main.run".toList ++ ' ' :: "/a/b.go:3".toList) =
      Except.ok "run/a/b.go:3".toList :=
  (formatToJSON_function (fun v => (v.map (fun o => (o.map Prod.snd).flatten)).flatten)
    "main.run".toList "/a/b.go:3".toList (by decide) (by decide)).2.1

theorem sliceFrom_cons_succ (a : Char) (t : Str) (i : Int) (hi : 0 ≤ i) :
    sliceFrom (a :: t) (i + 1) = sliceFrom t i := by
  unfold sliceFrom
  have h1 : (i + 1).toNat = i.toNat + 1 := by omega
  by_cases h : (t.length : Int) < i
  · have h2 : ¬ ¬ (i + 1 < 0 ∨ ((a :: t).length : Int) < i + 1) := by
      simp only [List.length_cons, Nat.cast_add, Nat.cast_one]
      omega
    simp only [not_not] at h2
    rw [if_pos h2, if_pos (Or.inr h)]
  · have h2 : ¬ (i + 1 < 0 ∨ ((a :: t).length : Int) < i + 1) := by
      simp only [List.length_cons, Nat.cast_add, Nat.cast_one]
      omega
    have h3 : ¬ (i < 0 ∨ (t.length : Int) < i) := by omega
    rw [if_neg h2, if_neg h3, h1]
    rfl

theorem sliceFrom_zero (s : Str) : sliceFrom s 0 = some s := by
  simp [sliceFrom]

theorem Index_singleton_nonneg (c : Char) (s : Str) :
    (0 ≤ Index s [c] ↔ c ∈ s) ∧ -1 ≤ Index s [c] := by
  induction s with
  | nil => simp [Index]
  | cons a t ih =>
    by_cases ha : a = c
    · simp [Index, ha]
    · have hne : ¬ ([a] = [c]) := by simpa using ha
      have hc : c ≠ a := fun e => ha e.symm
      simp only [Index, List.length_singleton, List.take_succ_cons, List.take_zero, hne,
        if_false, List.mem_cons, hc, false_or]
      by_cases hr : Index t [c] < 0
      · simp only [hr, if_true]
        constructor
        · constructor
          · intro h; omega
          · intro h; have := ih.1.2 h; omega
        · omega
      · simp only [hr, if_false]
        constructor
        · constructor
          · intro _; exact ih.1.1 (by omega)
          · intro _; omega
        · omega

theorem LastIndex_singleton_nonneg (c : Char) (s : Str) :
    (0 ≤ LastIndex s [c] ↔ c ∈ s) ∧ -1 ≤ LastIndex s [c] := by
  induction s with
  | nil => simp [LastIndex]
  | cons a t ih =>
    by_cases hr : 0 ≤ LastIndex t [c]
    · have ht := ih.1.1 hr
      simp only [LastIndex, hr, if_true, List.mem_cons, ht, or_true, iff_true]
      omega
    · have ht : c ∉ t := fun h => hr (ih.1.2 h)
      by_cases ha : a = c
      · simp [LastIndex, hr, ha]
      · have hne : ¬ ([a] = [c]) := by simpa using ha
        have hc : c ≠ a := fun e => ha e.symm
        simp [LastIndex, hr, hne, ht, hc]

theorem sliceFrom_Index_singleton (c : Char) (s : Str) :
    sliceFrom s (Index s [c] + 1) = some (afterFirst c s) := by
  induction s with
  | nil => simp [Index, sliceFrom, afterFirst]
  | cons a t ih =>
    by_cases ha : a = c
    · have h0 : Index (a :: t) [c] = 0 := by simp [Index, ha]
      rw [h0]
      simp [sliceFrom, afterFirst, ha]
    · have hne : ¬ ([a] = [c]) := by simpa using ha
      by_cases hr : Index t [c] < 0
      · have ht : c ∉ t := fun h => by
          have := (Index_singleton_nonneg c t).1.2 h
          omega
        have h0 : Index (a :: t) [c] = -1 := by
          simp [Index, hne, hr]
        rw [h0]
        have e : (-1 : Int) + 1 = 0 := by norm_num
        rw [e, sliceFrom_zero]
        simp [afterFirst, ha, ht]
      · have ht : c ∈ t := (Index_singleton_nonneg c t).1.1 (by omega)
        have h0 : Index (a :: t) [c] = Index t [c] + 1 := by
          simp [Index, hne, hr]
        rw [h0, sliceFrom_cons_succ a t _ (by omega), ih]
        simp [afterFirst, ha, ht]

theorem sliceFrom_LastIndex_singleton (c : Char) (s : Str) :
    sliceFrom s (LastIndex s [c] + 1) = some (afterLast c s) := by
  induction s with
  | nil => simp [LastIndex, sliceFrom, afterLast]
  | cons a t ih =>
    by_cases hr : 0 ≤ LastIndex t [c]
    · have ht : c ∈ t := (LastIndex_singleton_nonneg c t).1.1 hr
      have h0 : LastIndex (a :: t) [c] = LastIndex t [c] + 1 := by
        simp [LastIndex, hr]
      rw [h0, sliceFrom_cons_succ a t _ (by omega), ih]
      simp [afterLast, ht]
    · have ht : c ∉ t := fun h => hr ((LastIndex_singleton_nonneg c t).1.2 h)
      by_cases ha : a = c
      · have h0 : LastIndex (a :: t) [c] = 0 := by simp [LastIndex, hr, ha]
        rw [h0]
        simp [sliceFrom, afterLast, ha, ht]
      · have hne : ¬ ([a] = [c]) := by simpa using ha
        have h0 : LastIndex (a :: t) [c] = -1 := by simp [LastIndex, hr, hne]
        rw [h0]
        have e : (-1 : Int) + 1 = 0 := by norm_num
        rw [e, sliceFrom_zero]
        simp [afterLast, ha, ht]

theorem afterFirst_spec (c : Char) (s : Str) :
    (c ∈ s → ∃ pre, c ∉ pre ∧ s = pre ++ c :: afterFirst c s) ∧
    (c ∉ s → afterFirst c s = s) := by
  induction s with
  | nil => simp [afterFirst]
  | cons a t ih =>
    by_cases ha : a = c
    · subst ha
      exact ⟨fun _ => ⟨[], by simp, by simp [afterFirst]⟩, fun h => absurd (by simp) h⟩
    · have hc : c ≠ a := fun e => ha e.symm
      by_cases ht : c ∈ t
      · obtain ⟨pre, hp1, hp2⟩ := ih.1 ht
        refine ⟨fun _ => ⟨a :: pre, by simp [hc, hp1], ?_⟩, fun h => absurd (by simp [ht]) h⟩
        simp only [afterFirst, ha, ht, if_false, if_true, List.cons_append]
        rw [← hp2]
      · refine ⟨fun h => ?_, fun _ => by simp [afterFirst, ha, ht]⟩
        rcases List.mem_cons.1 h with e | e
        · exact absurd e hc
        · exact absurd e ht

/-- C14 (as stated, refuted): `funcname("pkg/mod.Receiver.Method")` is
`Receiver.Method`, not `Method`: the receiver-type prefix is not stripped. -/
theorem funcname_keeps_receiver :
    funcname "pkg/mod.Receiver.Method".toList = some "Receiver.Method".toList ∧
    funcname "pkg/mod.Receiver.Method".toList ≠ some "Method".toList := by
  decide

/-- C14 (amended): `funcname` never faults and returns the text after the
first `.` that follows the last `/` of the name: the package or module path
is stripped and a receiver-type prefix is kept, so
`funcname("pkg/mod.Receiver.Method")` is `Receiver.Method` and
`funcname("pkg/mod.Func")` is `Func`. -/
theorem funcname_eq (name : Str) :
    funcname name = some (afterFirst '.' (afterLast '/' name)) ∧
    '/' ∉ afterLast '/' name ∧
    ('/' ∈ name → ∃ pre, name = pre ++ '/' :: afterLast '/' name) ∧
    ('/' ∉ name → afterLast '/' name = name) ∧
    ('.' ∈ afterLast '/' name → ∃ pkg, '.' ∉ pkg ∧
      afterLast '/' name = pkg ++ '.' :: afterFirst '.' (afterLast '/' name)) ∧
    ('.' ∉ afterLast '/' name → afterFirst '.' (afterLast '/' name) = afterLast '/' name) ∧
    funcname "pkg/mod.Receiver.Method".toList = some "Receiver.Method".toList ∧
    funcname "pkg/mod.Func".toList = some "Func".toList := by
  refine ⟨?_, (afterLast_spec '/' name).1, (afterLast_spec '/' name).2,
    afterLast_not_mem '/' name, (afterFirst_spec '.' _).1, (afterFirst_spec '.' _).2,
    by decide, by decide⟩
  unfold funcname
  have h1 : sliceFrom name (LastIndex name "/".toList + 1) = some (afterLast '/' name) :=
    sliceFrom_LastIndex_singleton '/' name
  simp only [h1]
  exact sliceFrom_Index_singleton '.' _

/-! ## Theorems: rendering frames -/

/-- C15 (the code on every frame): without the `+` flag the verb `%v` writes
what `%s` writes, the base name of the file, and nothing more; this is never
the text `%s:%d`, which has the colon and the line number after it.  For the
frame of `pkg.Foo` at `/src/app/foo.go:10` the code writes `foo.go` where
the documentation of `Format` promises `foo.go:10`. -/
theorem Format_v_without_plus (FuncForPC : Nat → Option Func) (f : Frame) :
    Frame.Format FuncForPC f false 'v' = Frame.Format FuncForPC f false 's' ∧
    Frame.Format FuncForPC f false 'v' = some (Base (Frame.file FuncForPC f)) ∧
    Frame.Format FuncForPC f false 'd' = some (Itoa (Frame.line FuncForPC f)) ∧
    Frame.Format FuncForPC f false 'v' ≠
      some (Base (Frame.file FuncForPC f) ++ ":".toList ++ Itoa (Frame.line FuncForPC f)) ∧
    Frame.Format exampleFuncForPC 5 false 'v' = some "foo.go".toList ∧
    Frame.Format exampleFuncForPC 5 false 's' = some "foo.go".toList ∧
    Frame.Format exampleFuncForPC 5 false 'd' = some "10".toList := by
  have hv : Frame.Format FuncForPC f false 'v' = some (Base (Frame.file FuncForPC f)) := by
    simp [Frame.Format, Frame.formatVerb]
  refine ⟨by simp [Frame.Format, Frame.formatVerb], hv,
    by simp [Frame.Format, Frame.formatVerb], ?_, by decide, by decide, by decide⟩
  rw [hv]
  intro h
  have hl := congrArg (fun o => (o.map List.length).getD 0) h
  simp at hl

theorem digitChar_ne_newline (m : Nat) (h : m < 10) : Nat.digitChar m ≠ '\n' := by
  interval_cases m <;> decide

theorem toDigitsCore_no_newline (fuel : Nat) :
    ∀ (n : Nat) (ds : List Char), '\n' ∉ ds → '\n' ∉ Nat.toDigitsCore 10 fuel n ds := by
  induction fuel with
  | zero => intro n ds h; simpa [Nat.toDigitsCore] using h
  | succ fuel ih =>
    intro n ds h
    have hd : '\n' ∉ Nat.digitChar (n % 10) :: ds := by
      intro hm
      rcases List.mem_cons.1 hm with e | e
      · exact digitChar_ne_newline _ (Nat.mod_lt n (by norm_num)) e.symm
      · exact h e
    unfold Nat.toDigitsCore
    dsimp only
    split
    · exact hd
    · exact ih _ _ hd

theorem Itoa_no_newline (i : Int) : '\n' ∉ Itoa i := by
  cases i with
  | ofNat m =>
    simpa [Itoa, Nat.toDigits] using toDigitsCore_no_newline (m + 1) m [] (by simp)
  | negSucc m =>
    have h := toDigitsCore_no_newline (m + 1 + 1) (m + 1) [] (by simp)
    intro hm
    simp only [Itoa, Nat.toDigits, List.mem_cons] at hm
    rcases hm with e | e
    · exact absurd e (by decide)
    · exact h e

theorem Split_terminated (sep : Char) (ls : List Str) (h : ∀ l ∈ ls, sep ∉ l) :
    Split ((ls.map (fun l => l ++ [sep])).flatten) sep = ls ++ [[]] := by
  induction ls with
  | nil => simp [Split]
  | cons l rest ih =>
    have hl : sep ∉ l := h l (by simp)
    have hr : ∀ x ∈ rest, sep ∉ x := fun x hx => h x (by simp [hx])
    simp only [List.map_cons, List.flatten_cons, List.append_assoc, List.singleton_append,
      List.cons_append]
    rw [Split_append_sep sep l _ hl]
    simp only [List.nil_append]
    rw [ih hr]

theorem Format_plus_v (FuncForPC : Nat → Option Func) (f : Frame) :
    Frame.Format FuncForPC f true 'v' =
      some (Frame.name FuncForPC f ++ "\n\t".toList ++ Frame.file FuncForPC f ++
        ":".toList ++ Itoa (Frame.line FuncForPC f)) := by
  simp [Frame.Format, Frame.formatVerb]

theorem stringLoop_eq (FuncForPC : Nat → Option Func) (st : StackTrace) :
    ∀ acc : Str, StackTrace.stringLoop FuncForPC st acc =
      some (acc ++ ((stackLines FuncForPC st).map (fun l => l ++ ['\n'])).flatten) := by
  induction st with
  | nil => intro acc; simp [StackTrace.stringLoop, stackLines]
  | cons f rest ih =>
    intro acc
    rw [StackTrace.stringLoop, Format_plus_v]
    simp only [ih]
    simp [stackLines, frameLines, List.append_assoc]

theorem stackLines_get (FuncForPC : Nat → Option Func) (st : StackTrace) :
    ∀ i, i < st.length → ∃ f, st.get? i = some f ∧
      (stackLines FuncForPC st).get? (2 * i) = some (Frame.name FuncForPC f) ∧
      (stackLines FuncForPC st).get? (2 * i + 1) =
        some ('\t' :: (Frame.file FuncForPC f ++ ":".toList ++
          Itoa (Frame.line FuncForPC f))) := by
  induction st with
  | nil => intro i h; simp at h
  | cons f rest ih =>
    intro i h
    cases i with
    | zero => exact ⟨f, by simp [stackLines, frameLines]⟩
    | succ j =>
      obtain ⟨g, hg1, hg2, hg3⟩ := ih j (by simpa using h)
      refine ⟨g, by simpa using hg1, ?_, ?_⟩
      · have e : 2 * (j + 1) = 2 * j + 1 + 1 := by ring
        rw [e]
        simpa [stackLines, frameLines] using hg2
      · have e : 2 * (j + 1) + 1 = 2 * j + 1 + 1 + 1 := by ring
        rw [e]
        simpa [stackLines, frameLines] using hg3

theorem stackLines_length (FuncForPC : Nat → Option Func) (st : StackTrace) :
    (stackLines FuncForPC st).length = 2 * st.length := by
  induction st with
  | nil => rfl
  | cons f rest ih =>
    have e : stackLines FuncForPC (f :: rest) =
        frameLines FuncForPC f ++ stackLines FuncForPC rest := by
      simp [stackLines]
    rw [e, List.length_append, ih]
    simp only [frameLines, List.length_cons, List.length_nil]
    omega

/-- C16: for every stack trace whose resolved function names and file paths
hold no newline, `String()` is the text of `2d` newline-terminated lines for
`d` frames (`d` at most 32 for a captured stack): splitting it on newlines
gives these lines and the empty rest, and for frame `i`, in capture order,
line `2i` is the function name and line `2i+1` is a tab, the file path, `:`
and the line number. -/
theorem StackTrace_String_lines (FuncForPC : Nat → Option Func) (st : StackTrace)
    (hname : ∀ f ∈ st, '\n' ∉ Frame.name FuncForPC f)
    (hfile : ∀ f ∈ st, '\n' ∉ Frame.file FuncForPC f) :
    StackTrace.String FuncForPC st =
      some (((stackLines FuncForPC st).map (fun l => l ++ ['\n'])).flatten) ∧
    (stackLines FuncForPC st).length = 2 * st.length ∧
    (∀ l ∈ stackLines FuncForPC st, '\n' ∉ l) ∧
    Split (((stackLines FuncForPC st).map (fun l => l ++ ['\n'])).flatten) '\n' =
      stackLines FuncForPC st ++ [[]] ∧
    (∀ i, i < st.length → ∃ f, st.get? i = some f ∧
      (stackLines FuncForPC st).get? (2 * i) = some (Frame.name FuncForPC f) ∧
      (stackLines FuncForPC st).get? (2 * i + 1) =
        some ('\t' :: (Frame.file FuncForPC f ++ ":".toList ++
          Itoa (Frame.line FuncForPC f)))) ∧
    (∀ rt : List Nat, (stack.StackTrace (callers rt)).length ≤ 32) := by
  have hnl : ∀ l ∈ stackLines FuncForPC st, '\n' ∉ l := by
    intro l hl
    simp only [stackLines, List.mem_flatten, List.mem_map] at hl
    obtain ⟨ls, ⟨f, hf, rfl⟩, hmem⟩ := hl
    simp only [frameLines, List.mem_cons, List.mem_singleton, List.not_mem_nil, or_false] at hmem
    rcases hmem with rfl | rfl
    · exact hname f hf
    · intro hm
      simp only [List.mem_cons, List.mem_append] at hm
      rcases hm with e | (e | e) | e
      · exact absurd e (by decide)
      · exact hfile f hf e
      · exact absurd e (by decide)
      · exact Itoa_no_newline _ e
  refine ⟨?_, stackLines_length FuncForPC st, hnl, Split_terminated '\n' _ hnl,
    stackLines_get FuncForPC st, ?_⟩
  · simpa [StackTrace.String] using stringLoop_eq FuncForPC st []
  · intro rt
    simp [stack.StackTrace, callers, depth]

theorem StackTrace_String_lines_witness :
    StackTrace.String exampleFuncForPC [5, 0] =
      some "pkg.Foo\n\t/src/app/foo.go:10\nunknown\n\tunknown:0\n".toList :=
  (StackTrace_String_lines exampleFuncForPC [5, 0] (by decide) (by decide)).1

/-! ## Theorems: the loops of Filter and FilterOnlyBasePath -/

theorem framePairs_length (l : List Str) : (framePairs l).length = l.length / 2 := by
  match l with
  | [] => rfl
  | [_] => simp [framePairs]
  | a :: b :: rest =>
    have ih := framePairs_length rest
    simp only [framePairs, List.length_cons, ih]
    omega

theorem framePairs_get (l : List Str) :
    ∀ k, k < l.length / 2 → ∃ a b, l.get? (2 * k) = some a ∧ l.get? (2 * k + 1) = some b ∧
      (framePairs l).get? k = some (a, b) := by
  match l with
  | [] => intro k h; simp at h
  | [_] =>
    intro k h
    simp only [List.length_singleton] at h
    omega
  | a :: b :: rest =>
    intro k h
    cases k with
    | zero => exact ⟨a, b, by simp [framePairs]⟩
    | succ j =>
      have hj : j < rest.length / 2 := by
        simp only [List.length_cons] at h
        omega
      obtain ⟨x, y, hx, hy, hxy⟩ := framePairs_get rest j hj
      refine ⟨x, y, ?_, ?_, ?_⟩
      · have e : 2 * (j + 1) = 2 * j + 1 + 1 := by ring
        rw [e]
        simpa using hx
      · have e : 2 * (j + 1) + 1 = 2 * j + 1 + 1 + 1 := by ring
        rw [e]
        simpa using hy
      · simpa [framePairs] using hxy

/-- C17: for a raw stack that splits into `n` lines, the loop of `Filter`
(which is also the loop of `FilterOnlyBasePath`) ends without reading an
index out of range, also on the empty string, and its result is made from
exactly the `n / 2` frame records `(line 2k, line 2k+1)`: an unpaired last
line is in no record, and a filter that keeps every location collects
`n / 2` records. -/
theorem Filter_examines_pairs (MarshalIndent : List StrMap → Str) (f : StackTraceFilter)
    (basePath rawStack format : Str) :
    (framePairs (Split rawStack '\n')).length = (Split rawStack '\n').length / 2 ∧
    (∀ k, k < (Split rawStack '\n').length / 2 →
      ∃ a b, (Split rawStack '\n').get? (2 * k) = some a ∧
        (Split rawStack '\n').get? (2 * k + 1) = some b ∧
        (framePairs (Split rawStack '\n')).get? k = some (a, b)) ∧
    filtered f rawStack =
      some ((((framePairs (Split rawStack '\n')).map
          (fun p => (TrimSpace p.1, TrimSpace p.2))).filter
        (fun fr => decide (keeps f fr.2))).map (fun fr => record fr.1 fr.2)) ∧
    ((∀ location, keeps f location) →
      ∃ fl, filtered f rawStack = some fl ∧ fl.length = (Split rawStack '\n').length / 2) ∧
    (Filter MarshalIndent f rawStack format).isSome = true ∧
    FilterOnlyBasePath MarshalIndent f basePath rawStack format =
      (truncLoop basePath ((keptFrames f rawStack).map (fun fr => record fr.1 fr.2))
        (List.replicate (keptFrames f rawStack).length [])).map
        (fun newFiltered => encode MarshalIndent newFiltered format) ∧
    filtered f [] = some [] := by
  refine ⟨framePairs_length _, framePairs_get _, ?_, ?_, ?_, ?_, ?_⟩
  · simpa [keptFrames, frames] using filtered_eq f rawStack
  · intro hall
    refine ⟨_, filtered_eq f rawStack, ?_⟩
    have hk : keptFrames f rawStack = frames rawStack := by
      simp [keptFrames, hall]
    simp [hk, frames, framePairs_length]
  · simp [Filter, filtered_eq]
  · simp only [FilterOnlyBasePath, filtered_eq, List.length_map]
    cases truncLoop basePath (List.map (fun fr => record fr.1 fr.2) (keptFrames f rawStack))
      (List.replicate (keptFrames f rawStack).length []) <;> rfl
  · simpa [keptFrames, frames, Split, framePairs] using filtered_eq f []

theorem Filter_examines_pairs_witness :
    ∃ fl, filtered keepAllFilter "a\nb\nc\nd\ne".toList = some fl ∧
      fl.length = (Split "a\nb\nc\nd\ne".toList '\n').length / 2 :=
  (Filter_examines_pairs (fun _ => []) keepAllFilter [] "a\nb\nc\nd\ne".toList
    "plain".toList).2.2.2.1
    (fun _ => ⟨⟨Regexp.mk ".*".toList (fun _ => true), by simp [keepAllFilter], rfl⟩,
      by simp [keepAllFilter]⟩)

/-! ## Theorems: the records handed to the encoders -/

theorem Split_no_sep (sep : Char) (s : Str) : ∀ p ∈ Split s sep, sep ∉ p := by
  induction s with
  | nil => intro p hp; simp [Split] at hp; simp [hp]
  | cons c cs ih =>
    intro p hp
    by_cases hc : c = sep
    · simp only [Split, hc, if_true, List.mem_cons] at hp
      rcases hp with rfl | hp
      · simp
      · exact ih p hp
    · obtain ⟨q, qs, hq⟩ := List.exists_cons_of_ne_nil (Split_ne_nil cs sep)
      simp only [Split, hc, if_false, hq, List.mem_cons] at hp
      rcases hp with rfl | hp
      · intro hm
        rcases List.mem_cons.1 hm with e | e
        · exact hc e.symm
        · exact ih q (by simp [hq]) e
      · exact ih p (by simp [hq, hp])

theorem Split_mem_subset (sep : Char) (s : Str) : ∀ p ∈ Split s sep, ∀ c ∈ p, c ∈ s := by
  induction s with
  | nil => intro p hp c hc; simp [Split] at hp; simp [hp] at hc
  | cons a cs ih =>
    intro p hp c hc
    by_cases ha : a = sep
    · simp only [Split, ha, if_true, List.mem_cons] at hp
      rcases hp with rfl | hp
      · simp at hc
      · exact List.mem_cons_of_mem _ (ih p hp c hc)
    · obtain ⟨q, qs, hq⟩ := List.exists_cons_of_ne_nil (Split_ne_nil cs sep)
      simp only [Split, ha, if_false, hq, List.mem_cons] at hp
      rcases hp with rfl | hp
      · rcases List.mem_cons.1 hc with e | e
        · simp [e]
        · exact List.mem_cons_of_mem _ (ih q (by simp [hq]) c e)
      · exact List.mem_cons_of_mem _ (ih p (by simp [hq, hp]) c hc)

theorem TrimSpace_subset (s : Str) (c : Char) (h : c ∈ TrimSpace s) : c ∈ s := by
  unfold TrimSpace at h
  have h1 : c ∈ List.dropWhile isSpace (List.dropWhile isSpace s).reverse :=
    List.mem_reverse.1 h
  have h2 : c ∈ (List.dropWhile isSpace s).reverse :=
    (List.dropWhile_suffix isSpace).subset h1
  exact (List.dropWhile_suffix isSpace).subset (List.mem_reverse.1 h2)

theorem framePairs_mem (l : List Str) :
    ∀ p ∈ framePairs l, p.1 ∈ l ∧ p.2 ∈ l := by
  match l with
  | [] => intro p hp; simp [framePairs] at hp
  | [_] => intro p hp; simp [framePairs] at hp
  | a :: b :: rest =>
    intro p hp
    simp only [framePairs, List.mem_cons] at hp
    rcases hp with rfl | hp
    · simp
    · have := framePairs_mem rest p hp
      exact ⟨by simp [this.1], by simp [this.2]⟩

theorem frames_no_newline (rawStack : Str) :
    ∀ fr ∈ frames rawStack, '\n' ∉ fr.1 ∧ '\n' ∉ fr.2 := by
  intro fr hfr
  simp only [frames, List.mem_map] at hfr
  obtain ⟨p, hp, rfl⟩ := hfr
  have hm := framePairs_mem _ p hp
  exact ⟨fun h => Split_no_sep '\n' rawStack p.1 hm.1 (TrimSpace_subset _ _ h),
    fun h => Split_no_sep '\n' rawStack p.2 hm.2 (TrimSpace_subset _ _ h)⟩

theorem record_wellformed (function location : Str) (h1 : '\n' ∉ function)
    (h2 : '\n' ∉ location) :
    record function location ≠ [] ∧ '\n' ∉ record function location ∧
      ' ' ∈ record function location := by
  refine ⟨?_, ?_, ?_⟩
  · simp [record]
  · intro hm
    simp only [record, List.mem_append] at hm
    rcases hm with ((e | e) | e) | e
    · exact h1 e
    · exact absurd e (by decide)
    · exact h2 e
    · exact absurd e (by decide)
  · simp [record]

theorem Split_Join (sep : Char) (recs : List Str) (hne : recs ≠ [])
    (h : ∀ r ∈ recs, sep ∉ r) : Split (Join recs [sep]) sep = recs := by
  match recs, hne with
  | [a], _ => simpa [Join] using Split_eq_singleton a sep (h a (by simp))
  | a :: b :: rest, _ =>
    have ih := Split_Join sep (b :: rest) (by simp) (fun r hr => h r (by simp [hr]))
    have e : Join (a :: b :: rest) [sep] = a ++ sep :: Join (b :: rest) [sep] := by
      simp [Join]
    rw [e, Split_append_sep sep a _ (h a (by simp)), ih]

theorem tokens_of_space (line : Str) (h : ' ' ∈ line) :
    ∃ rest, Split line ' ' = firstToken line :: secondToken line :: rest := by
  obtain ⟨a, b, rest, hs⟩ := Split_two_le ' ' line h
  exact ⟨rest, by simp [firstToken, secondToken, hs]⟩

theorem plainLoop_wellformed (lines : List Str) :
    ∀ acc : List Str, (∀ l ∈ lines, ' ' ∈ l) →
      plainLoop lines acc = some (acc ++ lines.map plainLineOf) := by
  induction lines with
  | nil => intro acc _; simp [plainLoop]
  | cons l rest ih =>
    intro acc h
    have hl : ' ' ∈ l := h l (by simp)
    have hne : l ≠ [] := fun e => by simp [e] at hl
    obtain ⟨r, hr⟩ := tokens_of_space l hl
    rw [plainLoop, if_neg hne, hr]
    simp only []
    rw [ih _ (fun x hx => h x (by simp [hx]))]
    simp [plainLineOf, List.append_assoc]

theorem jsonLoop_wellformed (lines : List Str) :
    ∀ acc : List StrMap, (∀ l ∈ lines, ' ' ∈ l) →
      jsonLoop lines acc = Except.ok (acc ++ lines.map jsonObjectOf) := by
  induction lines with
  | nil => intro acc _; simp [jsonLoop]
  | cons l rest ih =>
    intro acc h
    have hl : ' ' ∈ l := h l (by simp)
    have hne : l ≠ [] := fun e => by simp [e] at hl
    obtain ⟨r, hr⟩ := tokens_of_space l hl
    rw [jsonLoop, if_neg hne, hr]
    simp only []
    rw [ih _ (fun x hx => h x (by simp [hx]))]
    simp [jsonObjectOf, List.append_assoc]

theorem afterLast_subset (c : Char) (s : Str) : ∀ x ∈ afterLast c s, x ∈ s := by
  intro x hx
  by_cases hc : c ∈ s
  · obtain ⟨pre, hpre⟩ := (afterLast_spec c s).2 hc
    rw [hpre]
    simp [hx]
  · rwa [afterLast_not_mem c s hc] at hx

theorem plainLineOf_no_newline (line : Str) (h : '\n' ∉ line) : '\n' ∉ plainLineOf line := by
  have hsub : ∀ p ∈ Split line ' ', '\n' ∉ p :=
    fun p hp hm => h (Split_mem_subset ' ' line p hp '\n' hm)
  have h1 : '\n' ∉ firstToken line := by
    unfold firstToken
    cases hs : Split line ' ' with
    | nil => simp
    | cons a t => simpa using hsub a (by simp [hs])
  have h2 : '\n' ∉ secondToken line := by
    unfold secondToken
    cases hs : Split line ' ' with
    | nil => simp
    | cons a t =>
      cases t with
      | nil => simp
      | cons b u => simpa using hsub b (by simp [hs])
  intro hm
  simp only [plainLineOf, List.mem_append] at hm
  rcases hm with (((e | e) | e) | e) | e
  · exact absurd e (by decide)
  · rw [lastFn_eq_afterLast] at e
    exact h1 (afterLast_subset _ _ _ e)
  · exact absurd e (by decide)
  · exact h2 e
  · exact absurd e (by decide)

theorem encoder_lines_of_records (recs : List Str) (h : ∀ r ∈ recs, '\n' ∉ r ∧ ' ' ∈ r) :
    plainLoop (Split (Join recs "\n".toList) '\n') [] = some (recs.map plainLineOf) ∧
    jsonLoop (Split (Join recs "\n".toList) '\n') [] = Except.ok (recs.map jsonObjectOf) := by
  by_cases hne : recs = []
  · subst hne
    simp [Join, Split, plainLoop, jsonLoop]
  · have hs : Split (Join recs "\n".toList) '\n' = recs :=
      Split_Join '\n' recs hne (fun r hr => (h r hr).1)
    rw [hs]
    exact ⟨by simpa using plainLoop_wellformed recs [] (fun r hr => (h r hr).2),
      by simpa using jsonLoop_wellformed recs [] (fun r hr => (h r hr).2)⟩

theorem kept_records_wellformed (f : StackTraceFilter) (rawStack : Str) :
    ∀ r ∈ (keptFrames f rawStack).map (fun fr => record fr.1 fr.2),
      r ≠ [] ∧ '\n' ∉ r ∧ ' ' ∈ r := by
  intro r hr
  simp only [List.mem_map] at hr
  obtain ⟨fr, hfr, rfl⟩ := hr
  have hmem : fr ∈ frames rawStack := (List.mem_filter.1 hfr).1
  have hn := frames_no_newline rawStack fr hmem
  exact record_wellformed fr.1 fr.2 hn.1 hn.2

/-- C18: every record that `Filter` hands to its encoders is a non-empty single
line with a space in it, so neither encoder meets a malformed record: with
format `json` the output is the marshalled array of one object per kept
frame (the error path is not taken), and otherwise it is the join of one
newline-free line per kept frame. -/
theorem Filter_never_malformed (MarshalIndent : List StrMap → Str) (f : StackTraceFilter)
    (rawStack format : Str) :
    filtered f rawStack = some ((keptFrames f rawStack).map (fun fr => record fr.1 fr.2)) ∧
    (∀ r ∈ (keptFrames f rawStack).map (fun fr => record fr.1 fr.2),
      r ≠ [] ∧ '\n' ∉ r ∧ ' ' ∈ r) ∧
    formatToJSON MarshalIndent
        (Join ((keptFrames f rawStack).map (fun fr => record fr.1 fr.2)) "\n".toList) =
      Except.ok (MarshalIndent
        (((keptFrames f rawStack).map (fun fr => record fr.1 fr.2)).map jsonObjectOf)) ∧
    Filter MarshalIndent f rawStack format =
      some (if format = "json".toList then
          MarshalIndent
            (((keptFrames f rawStack).map (fun fr => record fr.1 fr.2)).map jsonObjectOf)
        else
          Join (((keptFrames f rawStack).map (fun fr => record fr.1 fr.2)).map plainLineOf)
            "\n".toList) ∧
    (((keptFrames f rawStack).map (fun fr => record fr.1 fr.2)).map plainLineOf).length =
      (keptFrames f rawStack).length ∧
    (∀ l ∈ ((keptFrames f rawStack).map (fun fr => record fr.1 fr.2)).map plainLineOf,
      '\n' ∉ l) := by
  have hw := kept_records_wellformed f rawStack
  have henc := encoder_lines_of_records _ (fun r hr => (hw r hr).2)
  have hj : formatToJSON MarshalIndent
        (Join ((keptFrames f rawStack).map (fun fr => record fr.1 fr.2)) "\n".toList) =
      Except.ok (MarshalIndent
        (((keptFrames f rawStack).map (fun fr => record fr.1 fr.2)).map jsonObjectOf)) := by
    rw [formatToJSON, henc.2]
  refine ⟨filtered_eq f rawStack, hw, hj, ?_, by simp, ?_⟩
  · rw [Filter, filtered_eq]
    by_cases hf : format = "json".toList
    · simp only [encode, hf, if_true, hj]
    · simp only [encode, hf, if_false, formatPlain, henc.1]
  · intro l hl
    simp only [List.mem_map] at hl
    obtain ⟨r, hr, rfl⟩ := hl
    exact plainLineOf_no_newline r (hw r (by simpa using hr)).2.1

/-! ## Theorems: FilterOnlyBasePath -/

theorem Index_range (s substr : Str) :
    -1 ≤ Index s substr ∧ Index s substr ≤ (s.length : Int) := by
  induction s with
  | nil =>
    by_cases h : substr = []
    · simp [Index, h]
    · simp [Index, h]
  | cons c t ih =>
    by_cases hp : (c :: t).take substr.length = substr
    · simp only [Index, hp, if_true, List.length_cons, Nat.cast_add, Nat.cast_one]
      omega
    · by_cases hr : Index t substr < 0
      · simp only [Index, hp, if_false, hr, if_true, List.length_cons, Nat.cast_add,
          Nat.cast_one]
        omega
      · simp only [Index, hp, if_false, hr, List.length_cons, Nat.cast_add, Nat.cast_one]
        omega

theorem Index_nonneg_iff (s substr : Str) : 0 ≤ Index s substr ↔ substr <:+: s := by
  induction s with
  | nil =>
    by_cases h : substr = []
    · simp [Index, h]
    · simp [Index, h]
  | cons c t ih =>
    by_cases hp : (c :: t).take substr.length = substr
    · have hpre : substr <+: c :: t := List.prefix_iff_eq_take.2 hp.symm
      simp only [Index, hp, if_true, le_refl, true_iff]
      exact hpre.isInfix
    · have hnp : ¬ substr <+: c :: t := fun h => hp (List.prefix_iff_eq_take.1 h).symm
      rw [List.infix_cons_iff]
      by_cases hr : Index t substr < 0
      · have hni : ¬ substr <:+: t := fun h => by
          have := ih.2 h
          omega
        simp only [Index, hp, if_false, hr, if_true]
        constructor
        · intro h; omega
        · rintro (h | h)
          · exact absurd h hnp
          · exact absurd h hni
      · simp only [Index, hp, if_false, hr]
        constructor
        · intro _; exact Or.inr (ih.1 (by omega))
        · intro _; omega

theorem Index_eq_neg_one_iff (s substr : Str) : Index s substr = -1 ↔ ¬ substr <:+: s := by
  rw [← Index_nonneg_iff]
  have := Index_range s substr
  omega

theorem sliceFrom_Index (s substr : Str) :
    (Index s substr = -1 → sliceFrom s (Index s substr) = none) ∧
    (Index s substr ≠ -1 → sliceFrom s (Index s substr) = some (s.drop (Index s substr).toNat)) := by
  have hr := Index_range s substr
  constructor
  · intro h
    rw [h]
    simp [sliceFrom]
  · intro h
    have h2 : ¬ (Index s substr < 0 ∨ (s.length : Int) < Index s substr) := by omega
    simp [sliceFrom, h2]

theorem truncLoop_eq_none_iff (basePath : Str) (l : List Str) :
    ∀ acc : List Str, truncLoop basePath l acc = none ↔ ∃ r ∈ l, Index r basePath = -1 := by
  induction l with
  | nil => intro acc; simp [truncLoop]
  | cons r rest ih =>
    intro acc
    by_cases h : Index r basePath = -1
    · have hs := (sliceFrom_Index r basePath).1 h
      rw [truncLoop, hs]
      simp [h]
    · have hs := (sliceFrom_Index r basePath).2 h
      rw [truncLoop, hs]
      simp only [ih, List.mem_cons, exists_eq_or_imp, h, false_or]

/-- C19: `FilterOnlyBasePath` faults exactly when some kept record
`<function> (<location>)` does not contain `basePath`: `strings.Index` is
then `-1` and slicing the record at `-1` is out of range; it returns a
string exactly when every kept record contains `basePath`.  Such inputs
exist: the marker `zz` on the one-frame stack `a.F` at `x.go:1` faults. -/
theorem FilterOnlyBasePath_faults_iff (MarshalIndent : List StrMap → Str)
    (f : StackTraceFilter) (basePath rawStack format : Str) :
    (FilterOnlyBasePath MarshalIndent f basePath rawStack format = none ↔
      ∃ r ∈ (keptFrames f rawStack).map (fun fr => record fr.1 fr.2),
        Index r basePath = -1) ∧
    (∀ r : Str, Index r basePath = -1 ↔ ¬ basePath <:+: r) ∧
    (∀ r : Str, Index r basePath = -1 → sliceFrom r (Index r basePath) = none) ∧
    ((FilterOnlyBasePath MarshalIndent f basePath rawStack format).isSome = true ↔
      ∀ r ∈ (keptFrames f rawStack).map (fun fr => record fr.1 fr.2), basePath <:+: r) ∧
    (NewStackTraceFilter fragmentCompile [] []).bind
        (fun g => FilterOnlyBasePath MarshalIndent g "zz".toList "a.F\n\tx.go:1\n".toList
          "plain".toList) = none := by
  have hnone : FilterOnlyBasePath MarshalIndent f basePath rawStack format = none ↔
      ∃ r ∈ (keptFrames f rawStack).map (fun fr => record fr.1 fr.2),
        Index r basePath = -1 := by
    rw [← truncLoop_eq_none_iff basePath _
      (List.replicate ((keptFrames f rawStack).map (fun fr => record fr.1 fr.2)).length [])]
    simp only [FilterOnlyBasePath, filtered_eq]
    cases truncLoop basePath ((keptFrames f rawStack).map (fun fr => record fr.1 fr.2))
      (List.replicate ((keptFrames f rawStack).map (fun fr => record fr.1 fr.2)).length [])
      <;> simp
  have hex : (NewStackTraceFilter fragmentCompile [] []).bind
        (fun g => FilterOnlyBasePath MarshalIndent g "zz".toList "a.F\n\tx.go:1\n".toList
          "plain".toList) = none := rfl
  refine ⟨hnone, fun r => Index_eq_neg_one_iff r basePath,
    fun r h => (sliceFrom_Index r basePath).1 h, ?_, hex⟩
  rw [← Option.ne_none_iff_isSome, Ne, hnone]
  simp only [not_exists, not_and, Index_eq_neg_one_iff, not_not]

theorem truncLoop_acc (basePath : Str) (l : List Str) :
    ∀ acc : List Str,
      truncLoop basePath l acc = (truncLoop basePath l []).map (fun ts => acc ++ ts) := by
  induction l with
  | nil => intro acc; simp [truncLoop]
  | cons r rest ih =>
    intro acc
    cases hs : sliceFrom r (Index r basePath) with
    | none => simp [truncLoop, hs]
    | some t =>
      simp only [truncLoop, hs, List.nil_append]
      rw [ih (acc ++ [t]), ih [t]]
      cases truncLoop basePath rest [] <;> simp

theorem encode_cons_empty (MarshalIndent : List StrMap → Str) (records : List Str)
    (format : Str) :
    encode MarshalIndent ([] :: records) format = encode MarshalIndent records format := by
  cases records with
  | nil => simp [encode, Join]
  | cons b rest =>
    have e : Join ([] :: b :: rest) "\n".toList = '\n' :: Join (b :: rest) "\n".toList := by
      simp [Join]
    have hs : Split ('\n' :: Join (b :: rest) "\n".toList) '\n' =
        [] :: Split (Join (b :: rest) "\n".toList) '\n' := by
      simp [Split]
    simp only [encode, formatToJSON, formatPlain, e, hs, jsonLoop, plainLoop, if_true]
    rfl

theorem encode_replicate_empty (MarshalIndent : List StrMap → Str) (k : Nat)
    (records : List Str) (format : Str) :
    encode MarshalIndent (List.replicate k [] ++ records) format =
      encode MarshalIndent records format := by
  induction k with
  | zero => simp
  | succ k ih =>
    rw [List.replicate_succ, List.cons_append, encode_cons_empty, ih]

/-- C20: the output of `FilterOnlyBasePath` is the output computed when the
truncated records are appended to an empty list, for every filter, marker,
format and raw stack (the two fault on the same inputs): pre-sizing the
result only puts empty entries in front of the truncated records, and both
encoders skip them. -/
theorem FilterOnlyBasePath_presize (MarshalIndent : List StrMap → Str)
    (f : StackTraceFilter) (basePath rawStack format : Str) :
    FilterOnlyBasePath MarshalIndent f basePath rawStack format =
      FilterOnlyBasePathFromEmpty MarshalIndent f basePath rawStack format ∧
    (∀ (fl : List Str),
      truncLoop basePath fl (List.replicate fl.length []) =
        (truncLoop basePath fl []).map (fun ts => List.replicate fl.length [] ++ ts)) ∧
    (∀ (k : Nat) (ts : List Str),
      encode MarshalIndent (List.replicate k [] ++ ts) format =
        encode MarshalIndent ts format) := by
  refine ⟨?_, fun fl => truncLoop_acc basePath fl _,
    fun k ts => encode_replicate_empty MarshalIndent k ts format⟩
  unfold FilterOnlyBasePath FilterOnlyBasePathFromEmpty
  cases filtered f rawStack with
  | none => rfl
  | some fl =>
    simp only []
    rw [truncLoop_acc basePath fl (List.replicate fl.length [])]
    cases truncLoop basePath fl [] with
    | none => rfl
    | some ts => simp [encode_replicate_empty]

end Cerror
